import Mathlib

/-!
# go-gecko v3: streaming market listing

A shallow embedding of `v3/v3.go` (the streaming request path and the
streaming array decoder of `CoinsMarket`) together with the part of Go's
`encoding/json` stream decoder that `unmarshalStreaming` drives
(`Decoder.Token`, `Decoder.More`, `Decoder.Decode` and the byte scanner
behind them).

Conventions.

* A byte is a `Nat` (its numeric value); ASCII codes are written as numerals
  with the character in a comment.
* A response body is the sequence of bytes its successive `Read` calls will
  deliver, followed by the error `Read` reports once they are exhausted
  (`io.EOF` for a body that simply ends).  The decoder model keeps the bytes it
  has not yet scanned.  The real decoder reads its input in blocks, ahead of
  what it scans, so what is left in a reader once a decoder has run on it
  depends on how the reader batches its bytes and is not modelled: a call
  reports only whether it has read from its reader at all.
* `http.Client.Do` returns a response together with an error only when
  `CheckRedirect` fails, and then it has closed the response body itself
  before returning; that `Close` is part of the events of a call.
* A Go `(value, error)` return is an `Outcome`: either the returned pair or a
  run-time panic.
* Byte offsets carried inside `json.SyntaxError` values are not modelled.
* The decoder is that of Go 1.16 and later (the client needs `io.Discard`),
  whose scanner refuses values nested deeper than 10000.
* Memory is assumed sufficient; `make` still panics on a capacity that is
  negative or above the limit the run time accepts for the element type.
-/

namespace GoGecko

/-! ## Errors -/

/-- Go error values that occur on the streaming path. -/
inductive GoError where
  /-- The value `io.EOF`. -/
  | eof
  /-- The value `io.ErrUnexpectedEOF`. -/
  | unexpectedEOF
  /-- A `json.SyntaxError` "invalid character c" followed by a context. -/
  | invalidChar (c : Nat) (context : String)
  /-- A `json.SyntaxError` with a fixed message. -/
  | syntaxMsg (msg : String)
  /-- An error made by `fmt.Errorf` with a constant message. -/
  | errorf (msg : String)
  /-- The error `fmt.Errorf("return status code is %d", code)`. -/
  | statusCode (code : Int)
  /-- Any other error (transport failures, unmarshal type errors, ...). -/
  | other (msg : String)
  /-- The error `errors.Wrap(cause, msg)`. -/
  | wrap (msg : String) (cause : GoError)
  deriving DecidableEq, Repr

/-- Result of a Go call: it returns a value or it panics. -/
inductive Outcome (α : Type) where
  | ret (val : α)
  | panicked (msg : String)
  deriving DecidableEq, Repr

/-! ## encoding/json: the byte scanner (scanner.go) -/

namespace json

/-- Go `isSpace`: space, tab, carriage return, line feed. -/
def isSpace (c : Nat) : Bool :=
  c == 32 || c == 9 || c == 13 || c == 10

/-- Digit test `'0' <= c && c <= '9'`. -/
def isDigit (c : Nat) : Bool := decide (48 ≤ c) && decide (c ≤ 57)

/-- Digit test `'1' <= c && c <= '9'`. -/
def isDigit19 (c : Nat) : Bool := decide (49 ≤ c) && decide (c ≤ 57)

/-- Hexadecimal digit test used by the `\u` escape states. -/
def isHex (c : Nat) : Bool :=
  isDigit c || (decide (97 ≤ c) && decide (c ≤ 102)) || (decide (65 ≤ c) && decide (c ≤ 70))

/-- Scanner result codes (`scanContinue` ... `scanError`). -/
inductive ScanCode where
  | scanContinue | scanBeginLiteral | scanBeginObject | scanObjectKey
  | scanObjectValue | scanEndObject | scanBeginArray | scanArrayValue
  | scanEndArray | scanSkipSpace | scanEnd | scanError
  deriving DecidableEq, Repr

/-- Entries of the scanner's parse stack. -/
inductive ParseState where
  | parseObjectKey | parseObjectValue | parseArrayValue
  deriving DecidableEq, Repr

/-- The scanner's current state function (`scanner.step`). -/
inductive Step where
  | stateBeginValueOrEmpty | stateBeginValue | stateBeginStringOrEmpty
  | stateBeginString | stateEndValue | stateEndTop
  | stateInString | stateInStringEsc | stateInStringEscU | stateInStringEscU1
  | stateInStringEscU12 | stateInStringEscU123
  | stateNeg | state1 | state0 | stateDot | stateDot0 | stateE | stateESign | stateE0
  | stateT | stateTr | stateTru | stateF | stateFa | stateFal | stateFals
  | stateN | stateNu | stateNul | stateError
  deriving DecidableEq, Repr

/-- Constant `maxNestingDepth` of scanner.go. -/
def maxNestingDepth : Nat := 10000

/-- The JSON scanner.  `parseState` keeps the innermost entry at the head. -/
structure Scanner where
  step : Step
  endTop : Bool
  parseState : List ParseState
  err : Option GoError
  deriving DecidableEq, Repr

namespace Scanner

/-- Method `scanner.reset`. -/
def reset : Scanner :=
  { step := .stateBeginValue, endTop := false, parseState := [], err := none }

/-- Method `scanner.error`: record a syntax error and stop. -/
def error (s : Scanner) (c : Nat) (context : String) : Scanner × ScanCode :=
  ({ s with step := .stateError, err := some (.invalidChar c context) }, .scanError)

/-- Method `scanner.pushParseState`; `next` is the state function the caller
has already stored in `s.step`. -/
def pushParseState (s : Scanner) (c : Nat) (newParseState : ParseState)
    (next : Step) (successState : ScanCode) : Scanner × ScanCode :=
  let s1 := { s with step := next, parseState := newParseState :: s.parseState }
  if s1.parseState.length ≤ maxNestingDepth then (s1, successState)
  else s1.error c "exceeded max depth"

/-- Method `scanner.popParseState`. -/
def popParseState (s : Scanner) : Scanner :=
  let rest := s.parseState.tail
  if rest.length = 0 then { s with parseState := rest, step := .stateEndTop, endTop := true }
  else { s with parseState := rest, step := .stateEndValue }

/-- Overwrite the innermost parse state (`s.parseState[n-1] = p`). -/
def setTop (s : Scanner) (p : ParseState) : Scanner :=
  { s with parseState := p :: s.parseState.tail }

/-- State function `stateEndTop`.  The error it records for a non-space byte
is only reported by a later call, so the returned code is `scanEnd`. -/
def stateEndTop (s : Scanner) (c : Nat) : Scanner × ScanCode :=
  if !isSpace c then ((s.error c "after top-level value").1, .scanEnd)
  else (s, .scanEnd)

/-- State function `stateEndValue`. -/
def stateEndValue (s : Scanner) (c : Nat) : Scanner × ScanCode :=
  match s.parseState with
  | [] => stateEndTop { s with step := .stateEndTop, endTop := true } c
  | ps :: _ =>
    if isSpace c then ({ s with step := .stateEndValue }, .scanSkipSpace)
    else
      match ps with
      | .parseObjectKey =>
        if c = 58 /- ':' -/ then
          ({ s.setTop .parseObjectValue with step := .stateBeginValue }, .scanObjectKey)
        else s.error c "after object key"
      | .parseObjectValue =>
        if c = 44 /- ',' -/ then
          ({ s.setTop .parseObjectKey with step := .stateBeginString }, .scanObjectValue)
        else if c = 125 /- '}' -/ then (s.popParseState, .scanEndObject)
        else s.error c "after object key:value pair"
      | .parseArrayValue =>
        if c = 44 /- ',' -/ then ({ s with step := .stateBeginValue }, .scanArrayValue)
        else if c = 93 /- ']' -/ then (s.popParseState, .scanEndArray)
        else s.error c "after array element"

/-- State function `stateBeginValue`. -/
def stateBeginValue (s : Scanner) (c : Nat) : Scanner × ScanCode :=
  if isSpace c then (s, .scanSkipSpace)
  else if c = 123 /- '{' -/ then
    s.pushParseState c .parseObjectKey .stateBeginStringOrEmpty .scanBeginObject
  else if c = 91 /- '[' -/ then
    s.pushParseState c .parseArrayValue .stateBeginValueOrEmpty .scanBeginArray
  else if c = 34 /- '"' -/ then ({ s with step := .stateInString }, .scanBeginLiteral)
  else if c = 45 /- '-' -/ then ({ s with step := .stateNeg }, .scanBeginLiteral)
  else if c = 48 /- '0' -/ then ({ s with step := .state0 }, .scanBeginLiteral)
  else if c = 116 /- 't' -/ then ({ s with step := .stateT }, .scanBeginLiteral)
  else if c = 102 /- 'f' -/ then ({ s with step := .stateF }, .scanBeginLiteral)
  else if c = 110 /- 'n' -/ then ({ s with step := .stateN }, .scanBeginLiteral)
  else if isDigit19 c then ({ s with step := .state1 }, .scanBeginLiteral)
  else s.error c "looking for beginning of value"

/-- State function `stateBeginString`. -/
def stateBeginString (s : Scanner) (c : Nat) : Scanner × ScanCode :=
  if isSpace c then (s, .scanSkipSpace)
  else if c = 34 /- '"' -/ then ({ s with step := .stateInString }, .scanBeginLiteral)
  else s.error c "looking for beginning of object key string"

/-- State function `state0` (after a leading zero, or the integer part). -/
def state0 (s : Scanner) (c : Nat) : Scanner × ScanCode :=
  if c = 46 /- '.' -/ then ({ s with step := .stateDot }, .scanContinue)
  else if c = 101 ∨ c = 69 /- 'e' 'E' -/ then ({ s with step := .stateE }, .scanContinue)
  else stateEndValue s c

/-- State function `stateESign`. -/
def stateESign (s : Scanner) (c : Nat) : Scanner × ScanCode :=
  if isDigit c then ({ s with step := .stateE0 }, .scanContinue)
  else s.error c "in exponent of numeric literal"

/-- Shared shape of the literal states: expect byte `want`, go to `next`. -/
def expect (s : Scanner) (c want : Nat) (next : Step) (context : String) :
    Scanner × ScanCode :=
  if c = want then ({ s with step := next }, .scanContinue) else s.error c context

/-- One scanner transition: `s.step(s, c)`. -/
def next (s : Scanner) (c : Nat) : Scanner × ScanCode :=
  match s.step with
  | .stateBeginValueOrEmpty =>
    if isSpace c then (s, .scanSkipSpace)
    else if c = 93 /- ']' -/ then stateEndValue s c
    else stateBeginValue s c
  | .stateBeginValue => stateBeginValue s c
  | .stateBeginStringOrEmpty =>
    if isSpace c then (s, .scanSkipSpace)
    else if c = 125 /- '}' -/ then stateEndValue (s.setTop .parseObjectValue) c
    else stateBeginString s c
  | .stateBeginString => stateBeginString s c
  | .stateEndValue => stateEndValue s c
  | .stateEndTop => stateEndTop s c
  | .stateInString =>
    if c = 34 /- '"' -/ then ({ s with step := .stateEndValue }, .scanContinue)
    else if c = 92 /- '\' -/ then ({ s with step := .stateInStringEsc }, .scanContinue)
    else if c < 32 then s.error c "in string literal"
    else (s, .scanContinue)
  | .stateInStringEsc =>
    if c = 98 ∨ c = 102 ∨ c = 110 ∨ c = 114 ∨ c = 116 ∨ c = 92 ∨ c = 47 ∨ c = 34 then
      ({ s with step := .stateInString }, .scanContinue)
    else if c = 117 /- 'u' -/ then ({ s with step := .stateInStringEscU }, .scanContinue)
    else s.error c "in string escape code"
  | .stateInStringEscU =>
    if isHex c then ({ s with step := .stateInStringEscU1 }, .scanContinue)
    else s.error c "in \\u hexadecimal character escape"
  | .stateInStringEscU1 =>
    if isHex c then ({ s with step := .stateInStringEscU12 }, .scanContinue)
    else s.error c "in \\u hexadecimal character escape"
  | .stateInStringEscU12 =>
    if isHex c then ({ s with step := .stateInStringEscU123 }, .scanContinue)
    else s.error c "in \\u hexadecimal character escape"
  | .stateInStringEscU123 =>
    if isHex c then ({ s with step := .stateInString }, .scanContinue)
    else s.error c "in \\u hexadecimal character escape"
  | .stateNeg =>
    if c = 48 /- '0' -/ then ({ s with step := .state0 }, .scanContinue)
    else if isDigit19 c then ({ s with step := .state1 }, .scanContinue)
    else s.error c "in numeric literal"
  | .state1 =>
    if isDigit c then ({ s with step := .state1 }, .scanContinue)
    else state0 s c
  | .state0 => state0 s c
  | .stateDot =>
    if isDigit c then ({ s with step := .stateDot0 }, .scanContinue)
    else s.error c "after decimal point in numeric literal"
  | .stateDot0 =>
    if isDigit c then (s, .scanContinue)
    else if c = 101 ∨ c = 69 /- 'e' 'E' -/ then ({ s with step := .stateE }, .scanContinue)
    else stateEndValue s c
  | .stateE =>
    if c = 43 ∨ c = 45 /- '+' '-' -/ then ({ s with step := .stateESign }, .scanContinue)
    else stateESign s c
  | .stateESign => stateESign s c
  | .stateE0 =>
    if isDigit c then (s, .scanContinue)
    else stateEndValue s c
  | .stateT => expect s c 114 .stateTr "in literal true (expecting 'r')"
  | .stateTr => expect s c 117 .stateTru "in literal true (expecting 'u')"
  | .stateTru => expect s c 101 .stateEndValue "in literal true (expecting 'e')"
  | .stateF => expect s c 97 .stateFa "in literal false (expecting 'a')"
  | .stateFa => expect s c 108 .stateFal "in literal false (expecting 'l')"
  | .stateFal => expect s c 115 .stateFals "in literal false (expecting 's')"
  | .stateFals => expect s c 101 .stateEndValue "in literal false (expecting 'e')"
  | .stateN => expect s c 117 .stateNu "in literal null (expecting 'u')"
  | .stateNu => expect s c 108 .stateNul "in literal null (expecting 'l')"
  | .stateNul => expect s c 108 .stateEndValue "in literal null (expecting 'l')"
  | .stateError => (s, .scanError)

end Scanner

/-! ## encoding/json: the stream decoder (stream.go) -/

/-- Token-API states of the decoder (`tokenTopValue` ... `tokenObjectComma`). -/
inductive TokenState where
  | tokenTopValue | tokenArrayStart | tokenArrayValue | tokenArrayComma
  | tokenObjectStart | tokenObjectKey | tokenObjectColon | tokenObjectValue
  | tokenObjectComma
  deriving DecidableEq, Repr

/-- A `json.Decoder` reading from a response body.  `buf` holds the bytes not
yet scanned (buffered or still to be read), `final` the error the reader
reports after them. -/
structure Decoder where
  buf : List Nat
  final : GoError
  tokenState : TokenState
  tokenStack : List TokenState
  err : Option GoError
  deriving DecidableEq, Repr

/-- Values returned by `Decoder.Token`: a delimiter or a decoded scalar (kept
as its source text). -/
inductive Token where
  | delim (c : Nat)
  | value (text : List Nat)
  deriving DecidableEq, Repr

/-- Drop leading white space. -/
def dropSpaces : List Nat → List Nat
  | [] => []
  | c :: rest => if isSpace c then dropSpaces rest else c :: rest

/-- Function `nonSpace`: does the slice hold a non-space byte? -/
def nonSpace (b : List Nat) : Bool := b.any (fun c => !isSpace c)

/-- How the scan of one value ended. -/
inductive ScanOutcome where
  /-- A complete value occupies the first `n` bytes. -/
  | complete (n : Nat)
  /-- The scanner rejected a byte. -/
  | failed (err : Option GoError)
  /-- The bytes ran out after `n` of them, with the scanner in state `s`. -/
  | exhausted (s : Scanner) (n : Nat)
  deriving DecidableEq, Repr

/-- The inner loop of `Decoder.readValue` over the bytes at hand: feed bytes
to the scanner until the top-level value ends. -/
def scanValue : Scanner → Nat → List Nat → ScanOutcome
  | s, n, [] => .exhausted s n
  | s, n, c :: rest =>
    match s.next c with
    | (_, .scanEnd) => .complete n
    | (s1, .scanEndObject) =>
      if (s1.stateEndValue 32).2 = .scanEnd then .complete (n + 1) else scanValue s1 (n + 1) rest
    | (s1, .scanEndArray) =>
      if (s1.stateEndValue 32).2 = .scanEnd then .complete (n + 1) else scanValue s1 (n + 1) rest
    | (s1, .scanError) => .failed s1.err
    | (s1, _) => scanValue s1 (n + 1) rest

/-- Method `Decoder.readValue`: length of the next complete JSON value in
`buf`, or the error that ends the attempt. -/
def readValue (final : GoError) (buf : List Nat) : Except GoError Nat :=
  match scanValue Scanner.reset 0 buf with
  | .complete n => .ok n
  | .failed err => .error (err.getD (.syntaxMsg "scanner error"))
  | .exhausted s n =>
    if final = .eof then
      if (s.next 32).2 = .scanEnd then .ok n
      else if nonSpace buf then .error .unexpectedEOF
      else .error .eof
    else .error final

namespace Decoder

/-- Function `json.NewDecoder` over a reader with the given content. -/
def new (data : List Nat) (final : GoError) : Decoder :=
  { buf := data, final := final, tokenState := .tokenTopValue, tokenStack := [], err := none }

/-- Method `Decoder.peek`: skip white space and look at the next byte. -/
def peek (d : Decoder) : Except GoError Nat × Decoder :=
  match dropSpaces d.buf with
  | [] => (.error d.final, d)
  | c :: rest => (.ok c, { d with buf := c :: rest })

/-- Method `Decoder.More`. -/
def More (d : Decoder) : Bool × Decoder :=
  match d.peek with
  | (.ok c, d1) => (c != 93 && c != 125, d1)
  | (.error _, d1) => (false, d1)

/-- Method `Decoder.tokenValueAllowed`. -/
def tokenValueAllowed (d : Decoder) : Bool :=
  match d.tokenState with
  | .tokenTopValue | .tokenArrayStart | .tokenArrayValue | .tokenObjectValue => true
  | _ => false

/-- Method `Decoder.tokenValueEnd`. -/
def tokenValueEnd (d : Decoder) : Decoder :=
  match d.tokenState with
  | .tokenArrayStart | .tokenArrayValue => { d with tokenState := .tokenArrayComma }
  | .tokenObjectValue => { d with tokenState := .tokenObjectComma }
  | _ => d

/-- Method `Decoder.tokenPrepareForDecode`. -/
def tokenPrepareForDecode (d : Decoder) : Option GoError × Decoder :=
  match d.tokenState with
  | .tokenArrayComma =>
    match d.peek with
    | (.error e, d1) => (some e, d1)
    | (.ok c, d1) =>
      if c ≠ 44 /- ',' -/ then (some (.syntaxMsg "expected comma after array element"), d1)
      else (none, { d1 with buf := d1.buf.tail, tokenState := .tokenArrayValue })
  | .tokenObjectColon =>
    match d.peek with
    | (.error e, d1) => (some e, d1)
    | (.ok c, d1) =>
      if c ≠ 58 /- ':' -/ then (some (.syntaxMsg "expected colon after object key"), d1)
      else (none, { d1 with buf := d1.buf.tail, tokenState := .tokenObjectValue })
  | _ => (none, d)

/-- Method `Decoder.Decode` into a target whose unmarshalling is `unmarshal`
(applied to the value text without its leading white space). -/
def Decode {α : Type} (d : Decoder) (unmarshal : List Nat → Except GoError α) :
    Except GoError α × Decoder :=
  match d.err with
  | some e => (.error e, d)
  | none =>
    match d.tokenPrepareForDecode with
    | (some e, d1) => (.error e, d1)
    | (none, d1) =>
      if !d1.tokenValueAllowed then (.error (.syntaxMsg "not at beginning of value"), d1)
      else
        match readValue d1.final d1.buf with
        | .error e => (.error e, { d1 with err := some e })
        | .ok n =>
          (unmarshal (dropSpaces (d1.buf.take n)), tokenValueEnd { d1 with buf := d1.buf.drop n })

/-- Method `Decoder.tokenError`. -/
def tokenError (d : Decoder) (c : Nat) : GoError :=
  match d.tokenState with
  | .tokenTopValue | .tokenArrayStart | .tokenArrayValue | .tokenObjectValue =>
    .invalidChar c " looking for beginning of value"
  | .tokenArrayComma => .invalidChar c " after array element"
  | .tokenObjectKey => .invalidChar c " looking for beginning of object key string"
  | .tokenObjectColon => .invalidChar c " after object key"
  | .tokenObjectComma => .invalidChar c " after object key:value pair"
  | .tokenObjectStart => .invalidChar c ""

/-- Push the token state on an opening delimiter and enter state `st`. -/
def pushToken (d : Decoder) (rest : List Nat) (st : TokenState) : Decoder :=
  { d with buf := rest, tokenStack := d.tokenState :: d.tokenStack, tokenState := st }

/-- Pop the token stack on a closing delimiter. -/
def popToken (d : Decoder) (rest : List Nat) : Decoder :=
  tokenValueEnd { d with buf := rest, tokenState := d.tokenStack.headD .tokenTopValue,
                         tokenStack := d.tokenStack.tail }

/-- The loop of `Decoder.Token`, by recursion over the bytes still to scan
(`d.buf` is ignored in favour of the explicit list).  `unmarshalAny` decodes a
scalar into an empty interface. -/
def tokenLoop (unmarshalAny : List Nat → Except GoError Unit) (d : Decoder) :
    List Nat → Except GoError Token × Decoder
  | [] => (.error d.final, d)
  | c :: rest =>
    if isSpace c then tokenLoop unmarshalAny d rest
    else
      let d0 := { d with buf := c :: rest }
      if c = 91 /- '[' -/ then
        if !d0.tokenValueAllowed then (.error (d0.tokenError c), d0)
        else (.ok (.delim 91), d0.pushToken rest .tokenArrayStart)
      else if c = 93 /- ']' -/ then
        if d0.tokenState ≠ .tokenArrayStart ∧ d0.tokenState ≠ .tokenArrayComma then
          (.error (d0.tokenError c), d0)
        else (.ok (.delim 93), d0.popToken rest)
      else if c = 123 /- '{' -/ then
        if !d0.tokenValueAllowed then (.error (d0.tokenError c), d0)
        else (.ok (.delim 123), d0.pushToken rest .tokenObjectStart)
      else if c = 125 /- '}' -/ then
        if d0.tokenState ≠ .tokenObjectStart ∧ d0.tokenState ≠ .tokenObjectComma then
          (.error (d0.tokenError c), d0)
        else (.ok (.delim 125), d0.popToken rest)
      else if c = 58 /- ':' -/ then
        if d0.tokenState ≠ .tokenObjectColon then (.error (d0.tokenError c), d0)
        else tokenLoop unmarshalAny { d0 with buf := rest, tokenState := .tokenObjectValue } rest
      else if c = 44 /- ',' -/ then
        if d0.tokenState = .tokenArrayComma then
          tokenLoop unmarshalAny { d0 with buf := rest, tokenState := .tokenArrayValue } rest
        else if d0.tokenState = .tokenObjectComma then
          tokenLoop unmarshalAny { d0 with buf := rest, tokenState := .tokenObjectKey } rest
        else (.error (d0.tokenError c), d0)
      else if c = 34 /- '"' -/ ∧
          (d0.tokenState = .tokenObjectStart ∨ d0.tokenState = .tokenObjectKey) then
        match Decode { d0 with tokenState := .tokenTopValue }
            (fun text => (.ok text : Except GoError (List Nat))) with
        | (.error e, d1) => (.error e, { d1 with tokenState := d0.tokenState })
        | (.ok x, d1) => (.ok (.value x), { d1 with tokenState := .tokenObjectColon })
      else
        if !d0.tokenValueAllowed then (.error (d0.tokenError c), d0)
        else
          match Decode d0 (fun text => (unmarshalAny text).map (fun _ => text)) with
          | (.error e, d1) => (.error e, d1)
          | (.ok x, d1) => (.ok (.value x), d1)

/-- Method `Decoder.Token`. -/
def Token (unmarshalAny : List Nat → Except GoError Unit) (d : Decoder) :
    Except GoError Token × Decoder :=
  tokenLoop unmarshalAny d d.buf

end Decoder

end json

/-! ## net/http and the client (v3.go) -/

/-- An `io.ReadCloser` response body: the bytes still to be read and the error
reported after them. -/
structure ReadCloser where
  data : List Nat
  final : GoError
  deriving DecidableEq, Repr

/-- A `context.Context`; `none` is the nil context. -/
abbrev Context := Option String

/-- An `http.Request` as far as the client builds it. -/
structure Request where
  ctx : Context
  method : String
  url : String
  deriving DecidableEq, Repr

/-- An `http.Response` as far as the client looks at it. -/
structure Response where
  StatusCode : Int
  Body : ReadCloser
  deriving DecidableEq, Repr

/-- The pair `(resp, err)` returned by `http.Client.Do`; `resp = none` is the
nil response.  When both a response and an error are returned, `Do` has closed
the body of that response before returning: `doEvents` records that `Close`. -/
structure DoResult where
  resp : Option Response
  err : Option GoError
  deriving DecidableEq, Repr

/-- Observable effects of a call, in program order. -/
inductive Event where
  /-- The configured `StartHook` ran. -/
  | startHook
  /-- The configured `EndHook` ran. -/
  | endHook
  /-- The request was handed to `http.Client.Do`. -/
  | send (req : Request)
  /-- The call `io.Copy(io.Discard, resp)` ran: the body was read until its end
  or its first error; the result of the copy is ignored. -/
  | drain
  /-- The method `Close` of the response body was called, by the client or by
  `http.Client.Do` before it returned. -/
  | close
  deriving DecidableEq, Repr

/-- What a call did to the reader it was handed. -/
inductive ReaderUse where
  /-- No `Read` call was made: the reader is still as it was handed in. -/
  | untouched (reader : ReadCloser)
  /-- A `json.Decoder` was created on the reader and has read from it. -/
  | readFrom
  deriving DecidableEq, Repr

/-- Type `url.Values`, as the list of `Add` calls in program order. -/
abbrev Values := List (String × String)

/-- Method `url.Values.Get`: the first value stored under `key`, if any. -/
def Values.Get : Values → String → Option String
  | [], _ => none
  | (k, v) :: rest, key => if k = key then some v else Values.Get rest key

/-- What the code uses from outside `v3.go`: the record type's JSON decoding,
the `format` helpers, `url.Values.Encode`, `http.NewRequestWithContext`, the
default sort order of package `types`, and the run-time's limit on slice
capacity. -/
structure Env (Item : Type) where
  /-- Unmarshalling of one JSON value into a fresh `types.CoinsMarketItem`. -/
  unmarshalItem : List Nat → Except GoError Item
  /-- Unmarshalling of one JSON value into an empty interface. -/
  unmarshalAny : List Nat → Except GoError Unit
  /-- Largest capacity `make([]*types.CoinsMarketItem, 0, n)` accepts. -/
  maxCap : Int
  /-- Function `format.Int2String`. -/
  Int2String : Int → String
  /-- Function `format.Bool2String`. -/
  Bool2String : Bool → String
  /-- Method `url.Values.Encode`. -/
  Encode : Values → String
  /-- Function `http.NewRequestWithContext` (the request body is always nil). -/
  NewRequestWithContext : Context → String → String → Except GoError Request
  /-- Constant `types.OrderTypeObject.MarketCapDesc`. -/
  MarketCapDesc : String

/-- A `Client`: its HTTP client's `Do` and whether each hook is configured. -/
structure Client where
  httpClient : Request → DoResult
  StartHook : Bool
  EndHook : Bool

/-- Package variable `baseURL`. -/
def baseURL : String := "https://api.coingecko.com/api/v3"

/-- A Go `(value, error)` pair. -/
abbrev Pair (α : Type) := Option α × Option GoError

/-- Panic message of a nil pointer dereference. -/
def nilDeref : String := "invalid memory address or nil pointer dereference"

/-- Function `doStreamingReq`. -/
def doStreamingReq (req : Request) (client : Request → DoResult) :
    Outcome (Pair ReadCloser) :=
  let r := client req
  match r.err with
  | some err =>
    match r.resp with
    | none => .panicked nilDeref
    | some resp => .ret (some resp.Body, some err)
  | none =>
    match r.resp with
    | none => .panicked nilDeref
    | some resp =>
      if 200 ≠ resp.StatusCode then .ret (some resp.Body, some (.statusCode resp.StatusCode))
      else .ret (some resp.Body, none)

/-- Events of one call of `http.Client.Do`: the request is sent, and when `Do`
returns a response together with an error (a failed `CheckRedirect`, the
default limit of ten redirects included) it has closed the body of that
response before returning. -/
def doEvents (req : Request) (r : DoResult) : List Event :=
  match r.resp, r.err with
  | some _, some _ => [.send req, .close]
  | _, _ => [.send req]

/-- Events of a hook that runs only when configured. -/
def hook (configured : Bool) (e : Event) : List Event := if configured then [e] else []

/-- Method `Client.MakeStreamingReq`: the outcome and the events of the call.
The deferred `EndHook` runs on every exit, a panic included. -/
def MakeStreamingReq {Item : Type} (env : Env Item) (c : Client) (ctx : Context)
    (url : String) : Outcome (Pair ReadCloser) × List Event :=
  let pre := hook c.StartHook .startHook
  let post := hook c.EndHook .endHook
  match env.NewRequestWithContext ctx "GET" url with
  | .error err => (.ret (none, some err), pre ++ post)
  | .ok req =>
    let sent := doEvents req (c.httpClient req)
    match doStreamingReq req c.httpClient with
    | .panicked msg => (.panicked msg, pre ++ sent ++ post)
    | .ret (resp, some err) =>
      match resp with
      | some _ => (.ret (none, some err), pre ++ sent ++ [.drain, .close] ++ post)
      | none => (.ret (none, some err), pre ++ sent ++ post)
    | .ret (resp, none) => (.ret (resp, none), pre ++ sent ++ post)

/-- Result of the element loop of `unmarshalStreaming`. -/
inductive LoopResult (Item : Type) where
  /-- The method `More` reported no further element. -/
  | done (res : List Item) (d : json.Decoder)
  /-- The method `Decode` failed on an element. -/
  | failed (err : GoError) (d : json.Decoder)
  /-- The iteration bound of the model was reached. -/
  | outOfFuel

/-- The loop `for decoder.More() { ... }` of `unmarshalStreaming`, bounded by
`fuel` iterations. -/
def decodeLoop {Item : Type} (env : Env Item) :
    Nat → json.Decoder → List Item → LoopResult Item
  | 0, _, _ => .outOfFuel
  | fuel + 1, d, res =>
    match d.More with
    | (false, d1) => .done res d1
    | (true, d1) =>
      match d1.Decode env.unmarshalItem with
      | (.error err, d2) => .failed err d2
      | (.ok tempItem, d2) => decodeLoop env fuel d2 (res ++ [tempItem])

/-- Function `unmarshalStreaming`: the outcome and what the call did to the
reader.  Before `json.NewDecoder` nothing is read; the first `Token` call of
the decoder reads from the reader.
`make` panics on a capacity that is negative or above the run-time's limit.
Every completed iteration of the loop scans at least one byte, so the loop is
run with one more iteration than there are bytes; `unmarshalStreaming_total`
shows that this bound is never reached. -/
def unmarshalStreaming {Item : Type} (env : Env Item) (reader : ReadCloser) (perPage : Int) :
    Outcome (Pair (List Item)) × ReaderUse :=
  if perPage = 0 then (.ret (none, none), .untouched reader)
  else if perPage < 0 ∨ env.maxCap < perPage then
    (.panicked "makeslice: cap out of range", .untouched reader)
  else
    let decoder := json.Decoder.new reader.data reader.final
    match decoder.Token env.unmarshalAny with
    | (.error err, _) => (.ret (none, some (.wrap "invalid start token" err)), .readFrom)
    | (.ok _, d) =>
      match decodeLoop env (d.buf.length + 1) d [] with
      | .outOfFuel => (.panicked "iteration bound reached", .readFrom)
      | .failed err _ => (.ret (none, some (.wrap "decoding coins market item" err)), .readFrom)
      | .done res d1 =>
        match d1.Token env.unmarshalAny with
        | (.error err, _) => (.ret (none, some (.wrap "invalid end token" err)), .readFrom)
        | (.ok _, _) => (.ret (some res, none), .readFrom)

/-- Function `buildUrlParams`. -/
def buildUrlParams {Item : Type} (env : Env Item) (baseUrl path : String) (params : Values) :
    String :=
  baseUrl ++ path ++ env.Encode params

/-- The query built by `CoinsMarket` (v3.go lines 238-264): the parameters
added to `params` and the value of `perPage` after normalisation. -/
def CoinsMarket.query {Item : Type} (env : Env Item) (vsCurrency : String) (ids : List String)
    (order : String) (perPage : Int) (page : Int) (sparkline : Bool)
    (priceChangePercentage : List String) : Values × Int :=
  let params : Values := [("vs_currency", vsCurrency)]
  let order := if order.length = 0 then env.MarketCapDesc else order
  let params := params ++ [("order", order)]
  let params := if ids.length ≠ 0 then params ++ [("ids", String.intercalate "," ids)] else params
  let perPage := if perPage ≤ 0 ∨ perPage > 250 then 100 else perPage
  let params := params ++ [("per_page", env.Int2String perPage)]
  let params := params ++ [("page", env.Int2String page)]
  let params := params ++ [("sparkline", env.Bool2String sparkline)]
  let params :=
    if priceChangePercentage.length ≠ 0 then
      params ++ [("price_change_percentage", String.intercalate "," priceChangePercentage)]
    else params
  (params, perPage)

/-- Method `Client.CoinsMarket`: the outcome and the events of the call.  The
deferred `resp.Close()` runs on every exit after the stream was obtained. -/
def CoinsMarket {Item : Type} (env : Env Item) (c : Client) (ctx : Context)
    (vsCurrency : String) (ids : List String) (order : String) (perPage : Int) (page : Int)
    (sparkline : Bool) (priceChangePercentage : List String) :
    Outcome (Pair (List Item)) × List Event :=
  if vsCurrency.length = 0 then (.ret (none, some (.errorf "vs_currency is required")), [])
  else
    let q := CoinsMarket.query env vsCurrency ids order perPage page sparkline priceChangePercentage
    match MakeStreamingReq env c ctx (buildUrlParams env baseURL "/coins/markets?" q.1) with
    | (.panicked msg, tr) => (.panicked msg, tr)
    | (.ret (_, some err), tr) => (.ret (none, some (.wrap "male streaming req" err)), tr)
    | (.ret (none, none), tr) => (.panicked nilDeref, tr)
    | (.ret (some resp, none), tr) =>
      match (unmarshalStreaming env resp q.2).1 with
      | .panicked msg => (.panicked msg, tr ++ [.close])
      | .ret (_, some err) => (.ret (none, some (.wrap "unmarshaling resp" err)), tr ++ [.close])
      | .ret (res, none) => (.ret (res, none), tr ++ [.close])

open json

/-! ## Vocabulary of the statements

### JSON texts (RFC 8259) -/

/-- White space only. -/
def allSpace (ws : List Nat) : Bool := ws.all isSpace

/-- The characters of a JSON string between its quotation marks: bytes from
0x20 up other than the quotation mark and the backslash, two-byte escapes, and
`\u` followed by four hexadecimal digits. -/
inductive Chars : List Nat → Prop where
  | nil : Chars []
  | plain (c : Nat) (t : List Nat) : 32 ≤ c → c ≠ 34 → c ≠ 92 → Chars t → Chars (c :: t)
  | escape (c : Nat) (t : List Nat) :
      c = 34 ∨ c = 92 ∨ c = 47 ∨ c = 98 ∨ c = 102 ∨ c = 110 ∨ c = 114 ∨ c = 116 →
      Chars t → Chars (92 :: c :: t)
  | unicode (h1 h2 h3 h4 : Nat) (t : List Nat) :
      isHex h1 = true → isHex h2 = true → isHex h3 = true → isHex h4 = true →
      Chars t → Chars (92 :: 117 :: h1 :: h2 :: h3 :: h4 :: t)

/-- Grammar `int = zero / ( digit1-9 *DIGIT )`. -/
inductive IntPart : List Nat → Prop where
  | zero : IntPart [48]
  | digits (c : Nat) (ds : List Nat) : isDigit19 c = true → ds.all isDigit = true →
      IntPart (c :: ds)

/-- Grammar `[ frac ]` with `frac = decimal-point 1*DIGIT`. -/
inductive FracPart : List Nat → Prop where
  | none : FracPart []
  | digits (c : Nat) (ds : List Nat) : isDigit c = true → ds.all isDigit = true →
      FracPart (46 :: c :: ds)

/-- Grammar `[ exp ]` with `exp = e [ minus / plus ] 1*DIGIT`. -/
inductive ExpPart : List Nat → Prop where
  | none : ExpPart []
  | digits (e : Nat) (sign : List Nat) (c : Nat) (ds : List Nat) : e = 101 ∨ e = 69 →
      sign = [] ∨ sign = [43] ∨ sign = [45] → isDigit c = true → ds.all isDigit = true →
      ExpPart (e :: (sign ++ c :: ds))

/-- Grammar `number = [ minus ] int [ frac ] [ exp ]`. -/
inductive Number : List Nat → Prop where
  | mk (minus int frac exp : List Nat) : minus = [] ∨ minus = [45] → IntPart int →
      FracPart frac → ExpPart exp → Number (minus ++ (int ++ (frac ++ exp)))

/-- The three syntactic categories of nested JSON text. -/
inductive Kind where
  /-- A value without surrounding white space. -/
  | value
  /-- One or more comma-separated array elements, white space included. -/
  | elements
  /-- One or more comma-separated object members, white space included. -/
  | members
  deriving DecidableEq, Repr

/-- Relation `Syn k d text`: `text` is JSON text of category `k` whose arrays
and objects nest at most `d` deep. -/
inductive Syn : Kind → Nat → List Nat → Prop where
  | null (d : Nat) : Syn .value d [110, 117, 108, 108]
  | litTrue (d : Nat) : Syn .value d [116, 114, 117, 101]
  | litFalse (d : Nat) : Syn .value d [102, 97, 108, 115, 101]
  | number (d : Nat) (t : List Nat) : Number t → Syn .value d t
  | string (d : Nat) (t : List Nat) : Chars t → Syn .value d (34 :: (t ++ [34]))
  | emptyArray (d : Nat) (ws : List Nat) : allSpace ws = true →
      Syn .value (d + 1) (91 :: (ws ++ [93]))
  | array (d : Nat) (body : List Nat) : Syn .elements d body →
      Syn .value (d + 1) (91 :: (body ++ [93]))
  | emptyObject (d : Nat) (ws : List Nat) : allSpace ws = true →
      Syn .value (d + 1) (123 :: (ws ++ [125]))
  | object (d : Nat) (body : List Nat) : Syn .members d body →
      Syn .value (d + 1) (123 :: (body ++ [125]))
  | element (d : Nat) (w1 v w2 : List Nat) : allSpace w1 = true → allSpace w2 = true →
      Syn .value d v → Syn .elements d (w1 ++ (v ++ w2))
  | elementCons (d : Nat) (w1 v w2 rest : List Nat) : allSpace w1 = true →
      allSpace w2 = true → Syn .value d v → Syn .elements d rest →
      Syn .elements d (w1 ++ (v ++ (w2 ++ 44 :: rest)))
  | member (d : Nat) (w1 k w2 w3 v w4 : List Nat) : allSpace w1 = true → allSpace w2 = true →
      allSpace w3 = true → allSpace w4 = true → Chars k → Syn .value d v →
      Syn .members d (w1 ++ 34 :: (k ++ 34 :: (w2 ++ 58 :: (w3 ++ (v ++ w4)))))
  | memberCons (d : Nat) (w1 k w2 w3 v w4 rest : List Nat) : allSpace w1 = true →
      allSpace w2 = true → allSpace w3 = true → allSpace w4 = true → Chars k →
      Syn .value d v → Syn .members d rest →
      Syn .members d (w1 ++ 34 :: (k ++ 34 :: (w2 ++ 58 :: (w3 ++ (v ++ (w4 ++ 44 :: rest))))))

/-- A JSON object whose nesting the scanner's depth limit allows: braces
around white space or around members. -/
def IsObject (text : List Nat) : Prop :=
  ∃ body, text = 123 :: (body ++ [125]) ∧
    (allSpace body = true ∨ Syn .members (maxNestingDepth - 1) body)

/-! ### Streams holding an array of records -/

/-- A well-formed record with its decoding: the text is a JSON object and
unmarshals to `item`. -/
def WellFormedRecord {Item : Type} (env : Env Item) (text : List Nat) (item : Item) : Prop :=
  IsObject text ∧ env.unmarshalItem text = .ok item

/-- One array element as it stands in the stream: white space, the record
text, white space; `item` is the record's decoding. -/
structure Element (Item : Type) where
  pre : List Nat
  text : List Nat
  post : List Nat
  item : Item

/-- The bytes of an element. -/
def Element.source {Item : Type} (e : Element Item) : List Nat := e.pre ++ (e.text ++ e.post)

/-- An element is well formed when it is a well-formed record between white
space. -/
def Element.WellFormed {Item : Type} (env : Env Item) (e : Element Item) : Prop :=
  allSpace e.pre = true ∧ allSpace e.post = true ∧ WellFormedRecord env e.text e.item

/-- The bytes of the elements after the first: each preceded by a comma. -/
def restSource {Item : Type} : List (Element Item) → List Nat
  | [] => []
  | e :: es => 44 :: (e.source ++ restSource es)

/-- The bytes of comma-separated elements. -/
def elemsSource {Item : Type} : List (Element Item) → List Nat
  | [] => []
  | e :: es => e.source ++ restSource es

/-- The bytes of a JSON array: `lead [ inner e1 , e2 , ... ]`. -/
def arraySource {Item : Type} (lead inner : List Nat) (elems : List (Element Item)) : List Nat :=
  lead ++ 91 :: (inner ++ (elemsSource elems ++ [93]))

/-- The bytes of elements each followed by a comma. -/
def goodSource {Item : Type} : List (Element Item) → List Nat
  | [] => []
  | e :: es => e.source ++ 44 :: goodSource es

/-- The decoding of the value at the head of `buf`, as `Decode` computes it
once it is positioned at a value: scan one value, then unmarshal its text. -/
def recordAt {Item : Type} (env : Env Item) (final : GoError) (buf : List Nat) :
    Except GoError Item :=
  match readValue final buf with
  | .error e => .error e
  | .ok n => env.unmarshalItem (dropSpaces (buf.take n))

/-- The decoding of the scalar at the head of `buf` into an empty interface,
as `Token` computes it for a byte that is no delimiter. -/
def scalarAt {Item : Type} (env : Env Item) (final : GoError) (buf : List Nat) :
    Except GoError Unit :=
  match readValue final buf with
  | .error e => .error e
  | .ok n => env.unmarshalAny (dropSpaces (buf.take n))

/-! ### Notions used in the proofs -/

/-- Add `k` to the byte count of a scan outcome. -/
def json.ScanOutcome.shift (k : Nat) : ScanOutcome → ScanOutcome
  | .complete n => .complete (n + k)
  | .failed e => .failed e
  | .exhausted s n => .exhausted s (n + k)

/-- Codes on which the scan of a value goes on to the next byte. -/
def json.ScanCode.goesOn : ScanCode → Bool
  | .scanEnd | .scanEndObject | .scanEndArray | .scanError => false
  | _ => true

/-- Codes the first byte of a value can produce: the scan goes on or fails. -/
def json.ScanCode.opens (code : ScanCode) : Prop := code.goesOn = true ∨ code = .scanError

/-- A text is delimited when the scanner ends the value exactly at its last
byte, whatever follows. -/
def Delimited (text : List Nat) : Prop :=
  ∀ rest, scanValue Scanner.reset 0 (text ++ rest) = .complete text.length

/-- Bytes that may follow a value nested in an array or object. -/
def Term (r : Nat) : Prop := isSpace r = true ∨ r = 44 ∨ r = 93 ∨ r = 125

/-- What scanning a text of each category does to the scanner, for texts
nested inside an array or object. -/
def Scans : Kind → Nat → List Nat → Prop
  | .value, d, text =>
    ∀ (s : Scanner) (n r : Nat) (rest : List Nat),
      (s.step = .stateBeginValue ∨ s.step = .stateBeginValueOrEmpty) → s.parseState ≠ [] →
      s.parseState.length + d ≤ maxNestingDepth → Term r →
      scanValue s n (text ++ r :: rest) =
        scanValue { s with step := .stateEndValue } (n + text.length) (r :: rest)
  | .elements, d, text =>
    ∀ (s : Scanner) (n : Nat) (rest : List Nat) (σ : List ParseState),
      (s.step = .stateBeginValue ∨ s.step = .stateBeginValueOrEmpty) →
      s.parseState = .parseArrayValue :: σ →
      s.parseState.length + d ≤ maxNestingDepth →
      scanValue s n (text ++ 93 :: rest) =
        scanValue { s with step := .stateEndValue } (n + text.length) (93 :: rest)
  | .members, d, text =>
    ∀ (s : Scanner) (n : Nat) (rest : List Nat) (σ : List ParseState),
      (s.step = .stateBeginString ∨ s.step = .stateBeginStringOrEmpty) →
      s.parseState = .parseObjectKey :: σ →
      s.parseState.length + d ≤ maxNestingDepth →
      scanValue s n (text ++ 125 :: rest) =
        scanValue { s with step := .stateEndValue, parseState := .parseObjectValue :: σ }
          (n + text.length) (125 :: rest)

/-- The loop stops at `tail`: after white space it is at its end or at a
closing bracket or brace. -/
def NoMore (tail : List Nat) : Prop :=
  match dropSpaces tail with
  | [] => True
  | c :: _ => c = 93 ∨ c = 125

/-- The decoder after the opening bracket and all elements, about to read the
closing token from `buf`. -/
def afterElems (buf : List Nat) (final : GoError) (st : TokenState) : Decoder :=
  { buf := buf, final := final, tokenState := st, tokenStack := [.tokenTopValue], err := none }

/-! ### Example data -/

/-- An environment for the examples: a record decodes to its own text when it
is a JSON object and is a type error otherwise; numbers always fit. -/
def exampleEnv : Env (List Nat) :=
  { unmarshalItem := fun text =>
      if text.head? = some 123 then .ok text
      else .error (.other "json: cannot unmarshal into Go value of type types.CoinsMarketItem")
    unmarshalAny := fun _ => .ok ()
    maxCap := 35184372088832 -- 2^45 pointers of 8 bytes: the 2^48 bytes a 64-bit run time allows
    Int2String := fun i => toString i
    Bool2String := fun b => toString b
    Encode := fun v => String.intercalate "&" (v.map (fun kv => kv.1 ++ "=" ++ kv.2))
    NewRequestWithContext := fun ctx method url =>
      match ctx with
      | none => .error (.other "net/http: nil Context")
      | some _ => .ok { ctx := ctx, method := method, url := url }
    MarketCapDesc := "market_cap_desc" }

/-- The record `{"id":"btc"}`. -/
def btcText : List Nat := [123, 34, 105, 100, 34, 58, 34, 98, 116, 99, 34, 125]

/-- The record `{"id":"eth","p":[1.5e3,null]}`. -/
def ethText : List Nat :=
  [123, 34, 105, 100, 34, 58, 34, 101, 116, 104, 34, 44, 34, 112, 34, 58,
   91, 49, 46, 53, 101, 51, 44, 110, 117, 108, 108, 93, 125]

/-- The element `{"id":"btc"}` without white space. -/
def exampleBtc : Element (List Nat) :=
  { pre := [], text := btcText, post := [], item := btcText }

/-- The element `{"id":"eth","p":[1.5e3,null]}` after a space and before a
line feed. -/
def exampleEth : Element (List Nat) :=
  { pre := [32], text := ethText, post := [10], item := ethText }

/-- The request of the examples. -/
def exampleReq : Request :=
  { ctx := some "background", method := "GET",
    url := buildUrlParams exampleEnv baseURL "/coins/markets?"
      (CoinsMarket.query exampleEnv "usd" [] "" 0 1 false []).1 }

/-- A client whose transport answers 200 with the body `[{"id":"btc"}]`. -/
def exampleClient : Client :=
  { httpClient := fun _ =>
      { resp := some { StatusCode := 200, Body := { data := 91 :: (btcText ++ [93]), final := .eof } },
        err := none }
    StartHook := true
    EndHook := true }

/-- A client whose transport answers 404 with the body `{}`. -/
def notFoundClient : Client :=
  { httpClient := fun _ =>
      { resp := some { StatusCode := 404, Body := { data := [123, 125], final := .eof } },
        err := none }
    StartHook := true
    EndHook := true }

/-- A client whose transport fails without a response. -/
def failingClient : Client :=
  { httpClient := fun _ => { resp := none, err := some (.other "dial tcp: no such host") }
    StartHook := true
    EndHook := true }

/-- A client whose `Do` gives up after ten redirects: it returns the last
response, whose body it has closed, together with the error. -/
def redirectClient : Client :=
  { httpClient := fun _ =>
      { resp := some { StatusCode := 302,
                       Body := { data := [], final := .other "http: read on closed response body" } },
        err := some (.other "stopped after 10 redirects") }
    StartHook := true
    EndHook := true }

/-- The JSON object `{"a":[[...]]}` with `k` nested arrays. -/
def nestedRecord (k : Nat) : List Nat :=
  [123, 34, 97, 34, 58] ++ (List.replicate k 91 ++ (List.replicate k 93 ++ [125]))

/-- A well-formed JSON object nested one level deeper than the scanner
allows: `maxNestingDepth` arrays inside an object. -/
def deepRecord : List Nat := nestedRecord maxNestingDepth


/-! ## Lemmas: white space and the scanner -/

theorem dropSpaces_append {ws : List Nat} (h : allSpace ws = true) (l : List Nat) :
    dropSpaces (ws ++ l) = dropSpaces l := by
  induction ws with
  | nil => rfl
  | cons c ws ih =>
    simp only [allSpace, List.all_cons, Bool.and_eq_true] at h
    simp only [List.cons_append, dropSpaces, h.1, if_true]
    exact ih h.2

theorem dropSpaces_allSpace {ws : List Nat} (h : allSpace ws = true) : dropSpaces ws = [] := by
  have := dropSpaces_append h []
  simpa [dropSpaces] using this

theorem dropSpaces_split (l : List Nat) :
    ∃ ws, allSpace ws = true ∧ l = ws ++ dropSpaces l := by
  induction l with
  | nil => exact ⟨[], rfl, rfl⟩
  | cons c rest ih =>
    by_cases hc : isSpace c = true
    · obtain ⟨ws, h1, h2⟩ := ih
      refine ⟨c :: ws, by simp [allSpace, hc] at h1 ⊢; exact h1, ?_⟩
      simp only [dropSpaces, hc, if_true, List.cons_append]
      rw [← h2]
    · exact ⟨[], rfl, by simp [dropSpaces, hc]⟩

theorem nonSpace_append {ws : List Nat} (h : allSpace ws = true) (l : List Nat) :
    nonSpace (ws ++ l) = nonSpace l := by
  induction ws with
  | nil => rfl
  | cons c ws ih =>
    simp only [allSpace, List.all_cons, Bool.and_eq_true] at h
    have := ih h.2
    simp only [nonSpace, List.cons_append, List.any_cons, h.1] at this ⊢
    simpa using this

theorem tokenLoop_skip (ua : List Nat → Except GoError Unit) (d : Decoder) {ws : List Nat}
    (h : allSpace ws = true) (l : List Nat) :
    Decoder.tokenLoop ua d (ws ++ l) = Decoder.tokenLoop ua d l := by
  induction ws with
  | nil => rfl
  | cons c ws ih =>
    simp only [allSpace, List.all_cons, Bool.and_eq_true] at h
    simp only [List.cons_append, Decoder.tokenLoop, h.1, if_true]
    exact ih h.2

theorem tokenLoop_end (ua : List Nat → Except GoError Unit) (d : Decoder) :
    ∀ l : List Nat, dropSpaces l = [] → Decoder.tokenLoop ua d l = (.error d.final, d) := by
  intro l
  induction l with
  | nil => intro _; rfl
  | cons c rest ih =>
    intro h
    by_cases hc : isSpace c = true
    · simp only [dropSpaces, hc, if_true] at h
      simp only [Decoder.tokenLoop, hc, if_true]
      exact ih h
    · simp [dropSpaces, hc] at h

theorem scanValue_shift (s : Scanner) (n k : Nat) (l : List Nat) :
    scanValue s (n + k) l = (scanValue s n l).shift k := by
  induction l generalizing s n with
  | nil => rfl
  | cons c rest ih =>
    simp only [scanValue]
    split
    · rfl
    · split
      · simp [ScanOutcome.shift, Nat.add_right_comm]
      · rw [Nat.add_right_comm]; exact ih _ _
    · split
      · simp [ScanOutcome.shift, Nat.add_right_comm]
      · rw [Nat.add_right_comm]; exact ih _ _
    · rfl
    · rw [Nat.add_right_comm]; exact ih _ _

theorem scanValue_skip {ws : List Nat} (h : allSpace ws = true) (n : Nat) (l : List Nat) :
    scanValue Scanner.reset n (ws ++ l) = scanValue Scanner.reset (n + ws.length) l := by
  induction ws generalizing n with
  | nil => rfl
  | cons c ws ih =>
    simp only [allSpace, List.all_cons, Bool.and_eq_true] at h
    have hn : Scanner.reset.next c = (Scanner.reset, .scanSkipSpace) := by
      simp [Scanner.next, Scanner.reset, Scanner.stateBeginValue, h.1]
    have h2 := ih h.2 (n + 1)
    simp only [List.cons_append, scanValue, hn, List.length_cons, List.append_eq]
    rw [h2]; congr 1; omega

theorem Delimited.ne_nil {text : List Nat} (h : Delimited text) : text ≠ [] := by
  intro h0
  subst h0
  have := h []
  simp [scanValue] at this

theorem delimited_head {c : Nat} {t : List Nat} (h : Delimited (c :: t)) :
    c ≠ 93 ∧ c ≠ 125 ∧ c ≠ 44 := by
  have h0 := h []
  refine ⟨?_, ?_, ?_⟩ <;> intro hc <;> subst hc <;> simp [scanValue, Scanner.next, Scanner.reset,
    Scanner.stateBeginValue, isSpace, isDigit19, Scanner.error] at h0

theorem readValue_delimited {pre text : List Nat} (hpre : allSpace pre = true)
    (h : Delimited text) (final : GoError) (rest : List Nat) :
    readValue final (pre ++ (text ++ rest)) = .ok (pre.length + text.length) := by
  unfold readValue
  rw [scanValue_skip hpre, Nat.zero_add]
  have := scanValue_shift Scanner.reset 0 pre.length (text ++ rest)
  rw [Nat.zero_add] at this
  rw [this, h rest]
  simp [ScanOutcome.shift, Nat.add_comm]

theorem dropSpaces_pre {pre text : List Nat} (hpre : allSpace pre = true)
    (hhead : ∀ c ∈ text.head?, isSpace c = false) : dropSpaces (pre ++ text) = text := by
  rw [dropSpaces_append hpre]
  cases text with
  | nil => rfl
  | cons c t =>
    have := hhead c (by simp)
    simp [dropSpaces, this]

/-! ## Lemmas: the scanner accepts the JSON grammar -/

theorem scanValue_cons {s s1 : Scanner} {c : Nat} {code : ScanCode} (h : s.next c = (s1, code))
    (hcode : code.goesOn = true) (n : Nat) (rest : List Nat) :
    scanValue s n (c :: rest) = scanValue s1 (n + 1) rest := by
  rw [scanValue, h]
  cases code <;> simp [ScanCode.goesOn] at hcode <;> rfl

theorem scanValue_spaces {s : Scanner} (hs : ∀ c, isSpace c = true → s.next c = (s, .scanSkipSpace))
    {ws : List Nat} (hws : allSpace ws = true) (n : Nat) (l : List Nat) :
    scanValue s n (ws ++ l) = scanValue s (n + ws.length) l := by
  induction ws generalizing n with
  | nil => rfl
  | cons c ws ih =>
    simp only [allSpace, List.all_cons, Bool.and_eq_true] at hws
    rw [List.cons_append, scanValue_cons (hs c hws.1) rfl, ih hws.2, List.length_cons]
    congr 1; omega

theorem next_space_begin {s : Scanner} {c : Nat}
    (hs : s.step = .stateBeginValue ∨ s.step = .stateBeginValueOrEmpty ∨
      s.step = .stateBeginString ∨ s.step = .stateBeginStringOrEmpty)
    (hc : isSpace c = true) : s.next c = (s, .scanSkipSpace) := by
  rcases hs with h | h | h | h <;>
    simp [Scanner.next, h, hc, Scanner.stateBeginValue, Scanner.stateBeginString]

theorem next_space_end {s : Scanner} {c : Nat} (hs : s.step = .stateEndValue)
    (hp : s.parseState ≠ []) (hc : isSpace c = true) : s.next c = (s, .scanSkipSpace) := by
  cases s with
  | mk step endTop parseState err =>
    simp only at hs hp
    subst hs
    cases parseState with
    | nil => exact absurd rfl hp
    | cons p ps => simp [Scanner.next, Scanner.stateEndValue, hc]

theorem stateEndValue_step (s : Scanner) (a : Step) (c : Nat) :
    Scanner.stateEndValue { s with step := a } c = Scanner.stateEndValue s c := by
  cases s with
  | mk step endTop parseState err =>
    cases parseState with
    | nil => simp [Scanner.stateEndValue, Scanner.stateEndTop, Scanner.error]
    | cons p ps =>
      cases p <;> simp [Scanner.stateEndValue, Scanner.error, Scanner.setTop,
        Scanner.popParseState]

theorem scanValue_chars {t : List Nat} (ht : Chars t) :
    ∀ (s : Scanner) (n : Nat) (l : List Nat), s.step = .stateInString →
      scanValue s n (t ++ 34 :: l) = scanValue { s with step := .stateEndValue } (n + t.length + 1) l := by
  induction ht with
  | nil =>
    intro s n l hs
    have : s.next 34 = ({ s with step := .stateEndValue }, .scanContinue) := by
      simp [Scanner.next, hs]
    simpa using scanValue_cons this rfl n l
  | plain c t h32 h34 h92 _ ih =>
    intro s n l hs
    have : s.next c = (s, .scanContinue) := by
      simp [Scanner.next, hs, h34, h92]; omega
    rw [List.cons_append, scanValue_cons this rfl, ih s _ l hs, List.length_cons]
    congr 1; omega
  | escape c t hc _ ih =>
    intro s n l hs
    have h1 : s.next 92 = ({ s with step := .stateInStringEsc }, .scanContinue) := by
      simp [Scanner.next, hs]
    have h2 : Scanner.next { s with step := .stateInStringEsc } c = (s, .scanContinue) := by
      cases s; simp only at hs; subst hs
      rcases hc with h | h | h | h | h | h | h | h <;> subst h <;> simp [Scanner.next]
    rw [List.cons_append, List.cons_append, scanValue_cons h1 rfl, scanValue_cons h2 rfl,
      ih s _ l hs]
    simp only [List.length_cons]
    congr 1; omega
  | unicode a b c e t ha hb hc he _ ih =>
    intro s n l hs
    have h1 : s.next 92 = ({ s with step := .stateInStringEsc }, .scanContinue) := by
      simp [Scanner.next, hs]
    have h2 : Scanner.next { s with step := .stateInStringEsc } 117 =
        ({ s with step := .stateInStringEscU }, .scanContinue) := by
      simp [Scanner.next]
    have h3 : Scanner.next { s with step := .stateInStringEscU } a =
        ({ s with step := .stateInStringEscU1 }, .scanContinue) := by
      simp [Scanner.next, ha]
    have h4 : Scanner.next { s with step := .stateInStringEscU1 } b =
        ({ s with step := .stateInStringEscU12 }, .scanContinue) := by
      simp [Scanner.next, hb]
    have h5 : Scanner.next { s with step := .stateInStringEscU12 } c =
        ({ s with step := .stateInStringEscU123 }, .scanContinue) := by
      simp [Scanner.next, hc]
    have h6 : Scanner.next { s with step := .stateInStringEscU123 } e = (s, .scanContinue) := by
      cases s; simp only at hs; subst hs
      simp [Scanner.next, he]
    simp only [List.cons_append]
    rw [scanValue_cons h1 rfl, scanValue_cons h2 rfl, scanValue_cons h3 rfl,
      scanValue_cons h4 rfl, scanValue_cons h5 rfl, scanValue_cons h6 rfl, ih s _ l hs]
    simp only [List.length_cons]
    congr 1; omega

theorem Term.facts {r : Nat} (h : Term r) :
    isDigit r = false ∧ r ≠ 46 ∧ r ≠ 101 ∧ r ≠ 69 := by
  have : r = 32 ∨ r = 9 ∨ r = 13 ∨ r = 10 ∨ r = 44 ∨ r = 93 ∨ r = 125 := by
    rcases h with h | h | h | h
    · simp only [isSpace, Bool.or_eq_true, beq_iff_eq] at h; omega
    · omega
    · omega
    · omega
  rcases this with h | h | h | h | h | h | h <;> subst h <;> simp [isDigit]

theorem scanValue_digits {s : Scanner}
    (hs : s.step = .state1 ∨ s.step = .stateDot0 ∨ s.step = .stateE0) {ds : List Nat}
    (hds : ds.all isDigit = true) (n : Nat) (l : List Nat) :
    scanValue s n (ds ++ l) = scanValue s (n + ds.length) l := by
  induction ds generalizing n with
  | nil => rfl
  | cons c ds ih =>
    simp only [List.all_cons, Bool.and_eq_true] at hds
    have : s.next c = (s, .scanContinue) := by
      cases s; simp only at hs
      rcases hs with h | h | h <;> subst h <;> simp [Scanner.next, hds.1]
    rw [List.cons_append, scanValue_cons this rfl, ih hds.2, List.length_cons]
    congr 1; omega

theorem scanValue_numberEnd {s : Scanner}
    (hs : s.step = .state0 ∨ s.step = .state1 ∨ s.step = .stateDot0 ∨ s.step = .stateE0)
    {r : Nat} (hr : Term r) (n : Nat) (rest : List Nat) :
    scanValue s n (r :: rest) = scanValue { s with step := .stateEndValue } n (r :: rest) := by
  obtain ⟨h1, h2, h3, h4⟩ := hr.facts
  have ha : s.next r = Scanner.stateEndValue s r := by
    rcases hs with h | h | h | h <;> simp [Scanner.next, h, Scanner.state0, h1, h2, h3, h4]
  have hb : Scanner.next { s with step := .stateEndValue } r = Scanner.stateEndValue s r := by
    simp [Scanner.next, stateEndValue_step]
  rw [scanValue, scanValue, ha, hb]

theorem isDigit19_facts {c : Nat} (h : isDigit19 c = true) :
    isSpace c = false ∧ c ≠ 93 ∧ c ≠ 123 ∧ c ≠ 91 ∧ c ≠ 34 ∧ c ≠ 45 ∧ c ≠ 48 ∧ c ≠ 116 ∧
      c ≠ 102 ∧ c ≠ 110 := by
  simp only [isDigit19, Bool.and_eq_true, decide_eq_true_eq] at h
  refine ⟨?_, by omega, by omega, by omega, by omega, by omega, by omega, by omega, by omega,
    by omega⟩
  simp only [isSpace, Bool.or_eq_false_iff, beq_eq_false_iff_ne, ne_eq]
  omega

theorem scanValue_int {t : List Nat} (ht : IntPart t) {s : Scanner}
    (hs : s.step = .stateBeginValue ∨ s.step = .stateBeginValueOrEmpty ∨ s.step = .stateNeg)
    (n : Nat) (l : List Nat) :
    ∃ st, (st = .state0 ∨ st = .state1) ∧
      scanValue s n (t ++ l) = scanValue { s with step := st } (n + t.length) l := by
  cases ht with
  | zero =>
    refine ⟨.state0, Or.inl rfl, ?_⟩
    have : s.next 48 = ({ s with step := .state0 }, .scanBeginLiteral) ∨
        s.next 48 = ({ s with step := .state0 }, .scanContinue) := by
      rcases hs with h | h | h <;> simp [Scanner.next, h, Scanner.stateBeginValue, isSpace]
    rcases this with h | h <;> exact scanValue_cons h rfl n l
  | digits c ds hc hds =>
    refine ⟨.state1, Or.inr rfl, ?_⟩
    obtain ⟨f1, f2, f3, f4, f5, f6, f7, f8, f9, f10⟩ := isDigit19_facts hc
    have : s.next c = ({ s with step := .state1 }, .scanBeginLiteral) ∨
        s.next c = ({ s with step := .state1 }, .scanContinue) := by
      rcases hs with h | h | h <;>
        simp [Scanner.next, h, Scanner.stateBeginValue, f1, f2, f3, f4, f5, f6, f7, f8, f9, f10, hc]
    rw [List.cons_append, List.length_cons]
    rcases this with h | h <;>
    · rw [scanValue_cons h rfl, scanValue_digits (Or.inl rfl) hds]
      congr 1; omega

theorem scanValue_frac {t : List Nat} (ht : FracPart t) {s : Scanner}
    (hs : s.step = .state0 ∨ s.step = .state1) (n : Nat) (l : List Nat) :
    ∃ st, (st = .state0 ∨ st = .state1 ∨ st = .stateDot0) ∧
      scanValue s n (t ++ l) = scanValue { s with step := st } (n + t.length) l := by
  cases ht with
  | none =>
    rcases hs with h | h
    · exact ⟨.state0, Or.inl rfl, by cases s; simp only at h; subst h; rfl⟩
    · exact ⟨.state1, Or.inr (Or.inl rfl), by cases s; simp only at h; subst h; rfl⟩
  | digits c ds hc hds =>
    refine ⟨.stateDot0, Or.inr (Or.inr rfl), ?_⟩
    have h1 : s.next 46 = ({ s with step := .stateDot }, .scanContinue) := by
      rcases hs with h | h <;> simp [Scanner.next, h, Scanner.state0, isDigit]
    have h2 : Scanner.next { s with step := .stateDot } c =
        ({ s with step := .stateDot0 }, .scanContinue) := by
      simp [Scanner.next, hc]
    simp only [List.cons_append, List.length_cons]
    rw [scanValue_cons h1 rfl, scanValue_cons h2 rfl,
      scanValue_digits (Or.inr (Or.inl rfl)) hds]
    congr 1; omega

theorem scanValue_exp {t : List Nat} (ht : ExpPart t) {s : Scanner}
    (hs : s.step = .state0 ∨ s.step = .state1 ∨ s.step = .stateDot0) (n : Nat) (l : List Nat) :
    ∃ st, (st = .state0 ∨ st = .state1 ∨ st = .stateDot0 ∨ st = .stateE0) ∧
      scanValue s n (t ++ l) = scanValue { s with step := st } (n + t.length) l := by
  cases ht with
  | none =>
    rcases hs with h | h | h
    · exact ⟨.state0, Or.inl rfl, by cases s; simp only at h; subst h; rfl⟩
    · exact ⟨.state1, Or.inr (Or.inl rfl), by cases s; simp only at h; subst h; rfl⟩
    · exact ⟨.stateDot0, Or.inr (Or.inr (Or.inl rfl)), by cases s; simp only at h; subst h; rfl⟩
  | digits e sign c ds he hsign hc hds =>
    refine ⟨.stateE0, Or.inr (Or.inr (Or.inr rfl)), ?_⟩
    have h1 : s.next e = ({ s with step := .stateE }, .scanContinue) := by
      rcases he with he | he <;> subst he <;> rcases hs with h | h | h <;>
        simp [Scanner.next, h, Scanner.state0, isDigit]
    have hc' : c ≠ 43 ∧ c ≠ 45 := by
      simp only [isDigit, Bool.and_eq_true, decide_eq_true_eq] at hc; omega
    have h3 : Scanner.next { s with step := .stateE } c =
        ({ s with step := .stateE0 }, .scanContinue) := by
      simp [Scanner.next, Scanner.stateESign, hc, hc'.1, hc'.2]
    have h4 : Scanner.next { s with step := .stateESign } c =
        ({ s with step := .stateE0 }, .scanContinue) := by
      simp [Scanner.next, Scanner.stateESign, hc]
    rcases hsign with hsg | hsg | hsg <;> subst hsg
    · simp only [List.nil_append, List.cons_append, List.length_cons]
      rw [scanValue_cons h1 rfl, scanValue_cons h3 rfl,
        scanValue_digits (Or.inr (Or.inr rfl)) hds]
      congr 1; omega
    · have h2 : Scanner.next { s with step := .stateE } 43 =
          ({ s with step := .stateESign }, .scanContinue) := by
        simp [Scanner.next]
      simp only [List.nil_append, List.cons_append, List.length_cons]
      rw [scanValue_cons h1 rfl, scanValue_cons h2 rfl, scanValue_cons h4 rfl,
        scanValue_digits (Or.inr (Or.inr rfl)) hds]
      congr 1; omega
    · have h2 : Scanner.next { s with step := .stateE } 45 =
          ({ s with step := .stateESign }, .scanContinue) := by
        simp [Scanner.next]
      simp only [List.nil_append, List.cons_append, List.length_cons]
      rw [scanValue_cons h1 rfl, scanValue_cons h2 rfl, scanValue_cons h4 rfl,
        scanValue_digits (Or.inr (Or.inr rfl)) hds]
      congr 1; omega

theorem scanValue_number {t : List Nat} (ht : Number t) {s : Scanner}
    (hs : s.step = .stateBeginValue ∨ s.step = .stateBeginValueOrEmpty) {r : Nat} (hr : Term r)
    (n : Nat) (rest : List Nat) :
    scanValue s n (t ++ r :: rest) =
      scanValue { s with step := .stateEndValue } (n + t.length) (r :: rest) := by
  cases ht with
  | mk minus int frac exp hminus hint hfrac hexp =>
    have key : ∀ (s0 : Scanner) (m : Nat),
        (s0.step = .stateBeginValue ∨ s0.step = .stateBeginValueOrEmpty ∨ s0.step = .stateNeg) →
        scanValue s0 m (int ++ (frac ++ (exp ++ r :: rest))) =
          scanValue { s0 with step := .stateEndValue }
            (m + (int ++ (frac ++ exp)).length) (r :: rest) := by
      intro s0 m h0
      obtain ⟨st1, hst1, e1⟩ := scanValue_int hint h0 m (frac ++ (exp ++ r :: rest))
      obtain ⟨st2, hst2, e2⟩ := scanValue_frac hfrac (s := { s0 with step := st1 }) hst1
        (m + int.length) (exp ++ r :: rest)
      obtain ⟨st3, hst3, e3⟩ := scanValue_exp hexp (s := { s0 with step := st2 }) hst2
        (m + int.length + frac.length) (r :: rest)
      have e4 := scanValue_numberEnd (s := { s0 with step := st3 }) hst3 hr
        (m + int.length + frac.length + exp.length) rest
      rw [e1, e2, e3, e4]
      simp only [List.length_append]
      congr 1; omega
    rcases hminus with hm | hm <;> subst hm
    · simpa [List.append_assoc] using key s n (by tauto)
    · have h1 : s.next 45 = ({ s with step := .stateNeg }, .scanBeginLiteral) := by
        rcases hs with h | h <;> simp [Scanner.next, h, Scanner.stateBeginValue, isSpace]
      have := key { s with step := .stateNeg } (n + 1) (Or.inr (Or.inr rfl))
      simp only [List.append_assoc, List.cons_append, List.nil_append, List.length_cons,
        List.length_append] at this ⊢
      rw [scanValue_cons h1 rfl, this]
      congr 1; omega

theorem Term.ofSpaces {ws : List Nat} (hws : allSpace ws = true) {c : Nat} (hc : Term c)
    (l : List Nat) : ∃ r t, ws ++ c :: l = r :: t ∧ Term r := by
  cases ws with
  | nil => exact ⟨c, l, rfl, hc⟩
  | cons w ws =>
    simp only [allSpace, List.all_cons, Bool.and_eq_true] at hws
    exact ⟨w, ws ++ c :: l, rfl, Or.inl hws.1⟩

theorem next_openArray {s : Scanner}
    (hs : s.step = .stateBeginValue ∨ s.step = .stateBeginValueOrEmpty)
    (hlen : s.parseState.length + 1 ≤ maxNestingDepth) :
    s.next 91 = ({ s with step := .stateBeginValueOrEmpty,
                          parseState := .parseArrayValue :: s.parseState }, .scanBeginArray) := by
  rcases hs with h | h <;>
    simp [Scanner.next, h, Scanner.stateBeginValue, isSpace, Scanner.pushParseState, hlen]

theorem next_openObject {s : Scanner}
    (hs : s.step = .stateBeginValue ∨ s.step = .stateBeginValueOrEmpty)
    (hlen : s.parseState.length + 1 ≤ maxNestingDepth) :
    s.next 123 = ({ s with step := .stateBeginStringOrEmpty,
                           parseState := .parseObjectKey :: s.parseState }, .scanBeginObject) := by
  rcases hs with h | h <;>
    simp [Scanner.next, h, Scanner.stateBeginValue, isSpace, Scanner.pushParseState, hlen]

theorem next_quote {s : Scanner}
    (hs : s.step = .stateBeginValue ∨ s.step = .stateBeginValueOrEmpty ∨
      s.step = .stateBeginString ∨ s.step = .stateBeginStringOrEmpty) :
    s.next 34 = ({ s with step := .stateInString }, .scanBeginLiteral) := by
  rcases hs with h | h | h | h <;>
    simp [Scanner.next, h, Scanner.stateBeginValue, Scanner.stateBeginString, isSpace]

theorem next_colon {s : Scanner} (σ : List ParseState) (hs : s.step = .stateEndValue)
    (hp : s.parseState = .parseObjectKey :: σ) :
    s.next 58 = ({ s with step := .stateBeginValue, parseState := .parseObjectValue :: σ },
      .scanObjectKey) := by
  simp [Scanner.next, hs, Scanner.stateEndValue, hp, isSpace, Scanner.setTop]

theorem next_commaArray {s : Scanner} (σ : List ParseState) (hs : s.step = .stateEndValue)
    (hp : s.parseState = .parseArrayValue :: σ) :
    s.next 44 = ({ s with step := .stateBeginValue }, .scanArrayValue) := by
  simp [Scanner.next, hs, Scanner.stateEndValue, hp, isSpace]

theorem next_commaObject {s : Scanner} (σ : List ParseState) (hs : s.step = .stateEndValue)
    (hp : s.parseState = .parseObjectValue :: σ) :
    s.next 44 = ({ s with step := .stateBeginString, parseState := .parseObjectKey :: σ },
      .scanObjectValue) := by
  simp [Scanner.next, hs, Scanner.stateEndValue, hp, isSpace, Scanner.setTop]

theorem next_closeArray {s : Scanner} (σ : List ParseState)
    (hs : s.step = .stateEndValue ∨ s.step = .stateBeginValueOrEmpty)
    (hp : s.parseState = .parseArrayValue :: σ) :
    s.next 93 = (Scanner.popParseState s, .scanEndArray) := by
  rcases hs with h | h <;> simp [Scanner.next, h, Scanner.stateEndValue, hp, isSpace]

theorem next_closeObject {s : Scanner} (σ : List ParseState)
    (hs : (s.step = .stateEndValue ∧ s.parseState = .parseObjectValue :: σ) ∨
      (s.step = .stateBeginStringOrEmpty ∧ s.parseState = .parseObjectKey :: σ)) :
    s.next 125 = ({ s with step := if σ.length = 0 then .stateEndTop else .stateEndValue,
                           endTop := if σ.length = 0 then true else s.endTop,
                           parseState := σ }, .scanEndObject) := by
  rcases hs with ⟨h, hp⟩ | ⟨h, hp⟩ <;>
    by_cases hσ : σ.length = 0 <;>
    simp [Scanner.next, h, Scanner.stateEndValue, hp, isSpace, Scanner.setTop,
      Scanner.popParseState, hσ]

theorem scanValue_closeArray {s : Scanner} (σ : List ParseState)
    (hs : s.step = .stateEndValue ∨ s.step = .stateBeginValueOrEmpty)
    (hp : s.parseState = .parseArrayValue :: σ) (hσ : σ ≠ []) (n : Nat) (rest : List Nat) :
    scanValue s n (93 :: rest) =
      scanValue { s with step := .stateEndValue, parseState := σ } (n + 1) rest := by
  have hl : σ.length ≠ 0 := by simpa using hσ
  have hpop : Scanner.popParseState s = { s with step := .stateEndValue, parseState := σ } := by
    simp [Scanner.popParseState, hp, hl]
  rw [scanValue, next_closeArray σ hs hp, hpop]
  cases σ with
  | nil => exact absurd rfl hσ
  | cons p ps => simp [Scanner.stateEndValue, isSpace]

theorem scanValue_closeObject {s : Scanner} (σ : List ParseState)
    (hs : (s.step = .stateEndValue ∧ s.parseState = .parseObjectValue :: σ) ∨
      (s.step = .stateBeginStringOrEmpty ∧ s.parseState = .parseObjectKey :: σ))
    (hσ : σ ≠ []) (n : Nat) (rest : List Nat) :
    scanValue s n (125 :: rest) =
      scanValue { s with step := .stateEndValue, parseState := σ } (n + 1) rest := by
  have hl : σ.length ≠ 0 := by simpa using hσ
  rw [scanValue, next_closeObject σ hs]
  cases σ with
  | nil => exact absurd rfl hσ
  | cons p ps => simp [Scanner.stateEndValue, isSpace]

theorem scanValue_closeObjectTop {s : Scanner}
    (hs : (s.step = .stateEndValue ∧ s.parseState = [.parseObjectValue]) ∨
      (s.step = .stateBeginStringOrEmpty ∧ s.parseState = [.parseObjectKey]))
    (n : Nat) (rest : List Nat) :
    scanValue s n (125 :: rest) = .complete (n + 1) := by
  rw [scanValue, next_closeObject [] hs]
  simp [Scanner.stateEndValue, Scanner.stateEndTop, isSpace]

theorem Syn.scans {k : Kind} {d : Nat} {text : List Nat} (h : Syn k d text) :
    Scans k d text := by
  induction h with
  | null d =>
    intro s n r rest hs _ _ _
    have h1 : s.next 110 = ({ s with step := .stateN }, .scanBeginLiteral) := by
      rcases hs with h | h <;> simp [Scanner.next, h, Scanner.stateBeginValue, isSpace]
    have h2 : Scanner.next { s with step := .stateN } 117 =
        ({ s with step := .stateNu }, .scanContinue) := by simp [Scanner.next, Scanner.expect]
    have h3 : Scanner.next { s with step := .stateNu } 108 =
        ({ s with step := .stateNul }, .scanContinue) := by simp [Scanner.next, Scanner.expect]
    have h4 : Scanner.next { s with step := .stateNul } 108 =
        ({ s with step := .stateEndValue }, .scanContinue) := by
      simp [Scanner.next, Scanner.expect]
    simp only [List.cons_append, List.nil_append, List.length_cons, List.length_nil]
    rw [scanValue_cons h1 rfl, scanValue_cons h2 rfl, scanValue_cons h3 rfl,
      scanValue_cons h4 rfl]
  | litTrue d =>
    intro s n r rest hs _ _ _
    have h1 : s.next 116 = ({ s with step := .stateT }, .scanBeginLiteral) := by
      rcases hs with h | h <;> simp [Scanner.next, h, Scanner.stateBeginValue, isSpace]
    have h2 : Scanner.next { s with step := .stateT } 114 =
        ({ s with step := .stateTr }, .scanContinue) := by simp [Scanner.next, Scanner.expect]
    have h3 : Scanner.next { s with step := .stateTr } 117 =
        ({ s with step := .stateTru }, .scanContinue) := by simp [Scanner.next, Scanner.expect]
    have h4 : Scanner.next { s with step := .stateTru } 101 =
        ({ s with step := .stateEndValue }, .scanContinue) := by
      simp [Scanner.next, Scanner.expect]
    simp only [List.cons_append, List.nil_append, List.length_cons, List.length_nil]
    rw [scanValue_cons h1 rfl, scanValue_cons h2 rfl, scanValue_cons h3 rfl,
      scanValue_cons h4 rfl]
  | litFalse d =>
    intro s n r rest hs _ _ _
    have h1 : s.next 102 = ({ s with step := .stateF }, .scanBeginLiteral) := by
      rcases hs with h | h <;> simp [Scanner.next, h, Scanner.stateBeginValue, isSpace]
    have h2 : Scanner.next { s with step := .stateF } 97 =
        ({ s with step := .stateFa }, .scanContinue) := by simp [Scanner.next, Scanner.expect]
    have h3 : Scanner.next { s with step := .stateFa } 108 =
        ({ s with step := .stateFal }, .scanContinue) := by simp [Scanner.next, Scanner.expect]
    have h4 : Scanner.next { s with step := .stateFal } 115 =
        ({ s with step := .stateFals }, .scanContinue) := by simp [Scanner.next, Scanner.expect]
    have h5 : Scanner.next { s with step := .stateFals } 101 =
        ({ s with step := .stateEndValue }, .scanContinue) := by
      simp [Scanner.next, Scanner.expect]
    simp only [List.cons_append, List.nil_append, List.length_cons, List.length_nil]
    rw [scanValue_cons h1 rfl, scanValue_cons h2 rfl, scanValue_cons h3 rfl,
      scanValue_cons h4 rfl, scanValue_cons h5 rfl]
  | number d t ht =>
    intro s n r rest hs _ _ hr
    exact scanValue_number ht hs hr n rest
  | string d t ht =>
    intro s n r rest hs _ _ _
    have h1 := next_quote (s := s) (by tauto)
    simp only [List.cons_append, List.append_assoc, List.nil_append, List.length_cons,
      List.length_append, List.length_nil]
    rw [scanValue_cons h1 rfl, scanValue_chars ht { s with step := .stateInString } _ _ rfl]
    congr 1; omega
  | emptyArray d ws hws =>
    intro s n r rest hs hp hlen _
    have h1 := next_openArray hs (by omega)
    simp only [List.cons_append, List.append_assoc, List.nil_append, List.length_cons,
      List.length_append, List.length_nil]
    rw [scanValue_cons h1 rfl,
      scanValue_spaces (fun c hc => next_space_begin (by simp) hc) hws,
      scanValue_closeArray s.parseState (Or.inr rfl) rfl hp]
    congr 1; omega
  | array d body _ ih =>
    intro s n r rest hs hp hlen _
    have h1 := next_openArray hs (by omega)
    simp only [List.cons_append, List.append_assoc, List.nil_append, List.length_cons,
      List.length_append, List.length_nil]
    rw [scanValue_cons h1 rfl, ih _ _ _ s.parseState (Or.inr rfl) rfl
        (by simp only [List.length_cons]; omega),
      scanValue_closeArray s.parseState (Or.inl rfl) rfl hp]
    congr 1; omega
  | emptyObject d ws hws =>
    intro s n r rest hs hp hlen _
    have h1 := next_openObject hs (by omega)
    simp only [List.cons_append, List.append_assoc, List.nil_append, List.length_cons,
      List.length_append, List.length_nil]
    rw [scanValue_cons h1 rfl,
      scanValue_spaces (fun c hc => next_space_begin (by simp) hc) hws,
      scanValue_closeObject s.parseState (Or.inr ⟨rfl, rfl⟩) hp]
    congr 1; omega
  | object d body _ ih =>
    intro s n r rest hs hp hlen _
    have h1 := next_openObject hs (by omega)
    simp only [List.cons_append, List.append_assoc, List.nil_append, List.length_cons,
      List.length_append, List.length_nil]
    rw [scanValue_cons h1 rfl, ih _ _ _ s.parseState (Or.inr rfl) rfl
        (by simp only [List.length_cons]; omega),
      scanValue_closeObject s.parseState (Or.inl ⟨rfl, rfl⟩) hp]
    congr 1; omega
  | element d w1 v w2 hw1 hw2 _ ih =>
    intro s n rest σ hs hp hlen
    have hne : s.parseState ≠ [] := by simp [hp]
    obtain ⟨r, t, hrt, hr⟩ := Term.ofSpaces hw2 (c := 93) (Or.inr (Or.inr (Or.inl rfl))) rest
    simp only [List.append_assoc, List.length_append]
    rw [scanValue_spaces (fun c hc => next_space_begin (by tauto) hc) hw1, hrt,
      ih s _ r t hs hne hlen hr, ← hrt,
      scanValue_spaces (s := { s with step := .stateEndValue })
        (fun c hc => next_space_end rfl hne hc) hw2]
    congr 1; omega
  | elementCons d w1 v w2 more hw1 hw2 _ _ ihv ihm =>
    intro s n rest σ hs hp hlen
    have hne : s.parseState ≠ [] := by simp [hp]
    obtain ⟨r, t, hrt, hr⟩ := Term.ofSpaces hw2 (c := 44) (Or.inr (Or.inl rfl))
      (more ++ 93 :: rest)
    have hcomma := next_commaArray (s := { s with step := .stateEndValue }) σ rfl hp
    simp only [List.append_assoc, List.length_append, List.cons_append, List.length_cons]
    rw [scanValue_spaces (fun c hc => next_space_begin (by tauto) hc) hw1, hrt,
      ihv s _ r t hs hne hlen hr, ← hrt,
      scanValue_spaces (s := { s with step := .stateEndValue })
        (fun c hc => next_space_end rfl hne hc) hw2,
      scanValue_cons hcomma rfl,
      ihm { s with step := .stateBeginValue } _ rest σ (Or.inl rfl) hp hlen]
    congr 1; omega
  | member d w1 k w2 w3 v w4 hw1 hw2 hw3 hw4 hk _ ih =>
    intro s n rest σ hs hp hlen
    have hne : s.parseState ≠ [] := by simp [hp]
    obtain ⟨r, t, hrt, hr⟩ := Term.ofSpaces hw4 (c := 125) (Or.inr (Or.inr (Or.inr rfl))) rest
    have hq := next_quote (s := s) (by tauto)
    have hcolon := next_colon (s := { s with step := .stateEndValue }) σ rfl hp
    simp only [List.append_assoc, List.length_append, List.cons_append, List.length_cons]
    rw [scanValue_spaces (fun c hc => next_space_begin (by tauto) hc) hw1,
      scanValue_cons hq rfl, scanValue_chars hk { s with step := .stateInString } _ _ rfl,
      scanValue_spaces (s := { s with step := .stateEndValue })
        (fun c hc => next_space_end rfl hne hc) hw2,
      scanValue_cons hcolon rfl,
      scanValue_spaces
        (s := { s with step := .stateBeginValue, parseState := .parseObjectValue :: σ })
        (fun c hc => next_space_begin (Or.inl rfl) hc) hw3, hrt,
      ih { s with step := .stateBeginValue, parseState := .parseObjectValue :: σ } _ r t
        (Or.inl rfl) (by simp) (by simpa [hp] using hlen) hr, ← hrt,
      scanValue_spaces
        (s := { s with step := .stateEndValue, parseState := .parseObjectValue :: σ })
        (fun c hc => next_space_end rfl (by simp) hc) hw4]
    congr 1; omega
  | memberCons d w1 k w2 w3 v w4 more hw1 hw2 hw3 hw4 hk _ _ ihv ihm =>
    intro s n rest σ hs hp hlen
    have hne : s.parseState ≠ [] := by simp [hp]
    obtain ⟨r, t, hrt, hr⟩ := Term.ofSpaces hw4 (c := 44) (Or.inr (Or.inl rfl))
      (more ++ 125 :: rest)
    have hq := next_quote (s := s) (by tauto)
    have hcolon := next_colon (s := { s with step := .stateEndValue }) σ rfl hp
    have hcomma := next_commaObject
      (s := { s with step := .stateEndValue, parseState := .parseObjectValue :: σ }) σ rfl rfl
    simp only [List.append_assoc, List.length_append, List.cons_append, List.length_cons]
    rw [scanValue_spaces (fun c hc => next_space_begin (by tauto) hc) hw1,
      scanValue_cons hq rfl, scanValue_chars hk { s with step := .stateInString } _ _ rfl,
      scanValue_spaces (s := { s with step := .stateEndValue })
        (fun c hc => next_space_end rfl hne hc) hw2,
      scanValue_cons hcolon rfl,
      scanValue_spaces
        (s := { s with step := .stateBeginValue, parseState := .parseObjectValue :: σ })
        (fun c hc => next_space_begin (Or.inl rfl) hc) hw3, hrt,
      ihv { s with step := .stateBeginValue, parseState := .parseObjectValue :: σ } _ r t
        (Or.inl rfl) (by simp) (by simpa [hp] using hlen) hr, ← hrt,
      scanValue_spaces
        (s := { s with step := .stateEndValue, parseState := .parseObjectValue :: σ })
        (fun c hc => next_space_end rfl (by simp) hc) hw4,
      scanValue_cons hcomma rfl,
      ihm { s with step := .stateBeginString, parseState := .parseObjectKey :: σ } _ rest σ
        (Or.inl rfl) rfl (by simpa [hp] using hlen)]
    congr 1; omega

/-- Every JSON object is delimited: the scanner ends the value at its closing
brace without looking further. -/
theorem isObject_delimited {text : List Nat} (h : IsObject text) : Delimited text := by
  obtain ⟨body, rfl, hbody⟩ := h
  intro rest
  have h1 := next_openObject (s := Scanner.reset) (Or.inl rfl)
    (by simp [Scanner.reset, maxNestingDepth])
  simp only [List.cons_append, List.append_assoc, List.nil_append, List.length_cons,
    List.length_append, List.length_nil]
  rw [scanValue_cons h1 rfl]
  rcases hbody with hws | hsyn
  · rw [scanValue_spaces (fun c hc => next_space_begin (by simp) hc) hws,
      scanValue_closeObjectTop (Or.inr ⟨rfl, rfl⟩)]
    congr 1; omega
  · have hs := hsyn.scans
    rw [hs _ _ rest [] (Or.inr rfl) rfl (by simp [Scanner.reset, maxNestingDepth]),
      scanValue_closeObjectTop (Or.inl ⟨rfl, rfl⟩)]
    congr 1; omega

theorem isObject_head {text : List Nat} (h : IsObject text) :
    ∀ c ∈ text.head?, isSpace c = false := by
  obtain ⟨body, rfl, _⟩ := h
  intro c hc
  simp only [List.head?_cons, Option.mem_def, Option.some.injEq] at hc
  subst hc
  rfl

theorem wellFormedRecord_delimited {Item : Type} {env : Env Item} {text : List Nat}
    {item : Item} (h : WellFormedRecord env text item) : Delimited text :=
  isObject_delimited h.1

theorem wellFormedRecord_head {Item : Type} {env : Env Item} {text : List Nat}
    {item : Item} (h : WellFormedRecord env text item) :
    ∀ c ∈ text.head?, isSpace c = false :=
  isObject_head h.1

/-! ## Lemmas: the element loop -/

theorem More_cons (d : Decoder) {c : Nat} {rest : List Nat} (h : dropSpaces d.buf = c :: rest) :
    d.More = (c != 93 && c != 125, { d with buf := c :: rest }) := by
  unfold Decoder.More Decoder.peek
  rw [h]

theorem More_end (d : Decoder) (h : dropSpaces d.buf = []) : d.More = (false, d) := by
  unfold Decoder.More Decoder.peek
  rw [h]

theorem Decode_record {Item : Type} (env : Env Item) (d : Decoder) (pre : List Nat)
    {text : List Nat} {item : Item} (rest : List Nat) (hpre : allSpace pre = true)
    (hrec : WellFormedRecord env text item) (herr : d.err = none)
    (hst : d.tokenState = .tokenArrayStart ∨ d.tokenState = .tokenArrayValue)
    (hbuf : d.buf = pre ++ (text ++ rest)) :
    d.Decode env.unmarshalItem = (.ok item, { d with buf := rest, tokenState := .tokenArrayComma }) := by
  have hhead := wellFormedRecord_head hrec
  have hdel := wellFormedRecord_delimited hrec
  have hitem := hrec.2
  have hrv := readValue_delimited hpre hdel d.final rest
  have htake : (pre ++ (text ++ rest)).take (pre.length + text.length) = pre ++ text := by
    rw [← List.append_assoc, ← List.length_append, List.take_left']
    rfl
  have hdrop : (pre ++ (text ++ rest)).drop (pre.length + text.length) = rest := by
    rw [← List.append_assoc, ← List.length_append, List.drop_left']
    rfl
  unfold Decoder.Decode
  rcases hst with hst | hst <;>
    simp [herr, Decoder.tokenPrepareForDecode, hst, Decoder.tokenValueAllowed, hbuf, hrv, htake,
      hdrop, dropSpaces_pre hpre hhead, hitem, Decoder.tokenValueEnd]

theorem Decode_comma_record {Item : Type} (env : Env Item) (d : Decoder) (ws : List Nat)
    {pre text : List Nat} {item : Item} (rest : List Nat) (hws : allSpace ws = true) (hpre : allSpace pre = true)
    (hrec : WellFormedRecord env text item) (herr : d.err = none)
    (hst : d.tokenState = .tokenArrayComma)
    (hbuf : d.buf = ws ++ 44 :: (pre ++ (text ++ rest))) :
    d.Decode env.unmarshalItem = (.ok item, { d with buf := rest, tokenState := .tokenArrayComma }) := by
  have hhead := wellFormedRecord_head hrec
  have hdel := wellFormedRecord_delimited hrec
  have hitem := hrec.2
  have hrv := readValue_delimited hpre hdel d.final rest
  have htake : (pre ++ (text ++ rest)).take (pre.length + text.length) = pre ++ text := by
    rw [← List.append_assoc, ← List.length_append, List.take_left']
    rfl
  have hdrop : (pre ++ (text ++ rest)).drop (pre.length + text.length) = rest := by
    rw [← List.append_assoc, ← List.length_append, List.drop_left']
    rfl
  unfold Decoder.Decode
  simp [herr, Decoder.tokenPrepareForDecode, hst, Decoder.tokenValueAllowed, hbuf, hrv, htake,
      hdrop, dropSpaces_pre hpre hhead, hitem, Decoder.tokenValueEnd, Decoder.peek,
      dropSpaces_append hws, dropSpaces, isSpace]

theorem decodeLoop_stop {Item : Type} (env : Env Item) (fuel : Nat) (d : Decoder)
    (res : List Item) {ws tail : List Nat} (hws : allSpace ws = true) (hstop : NoMore tail)
    (hbuf : d.buf = ws ++ tail) :
    ∃ buf, decodeLoop env (fuel + 1) d res = .done res { d with buf := buf } ∧
      dropSpaces buf = dropSpaces tail ∧ (dropSpaces tail ≠ [] → buf = dropSpaces tail) := by
  have hdrop : dropSpaces d.buf = dropSpaces tail := by rw [hbuf, dropSpaces_append hws]
  unfold NoMore at hstop
  cases htail : dropSpaces tail with
  | nil =>
    refine ⟨d.buf, ?_, hdrop.trans htail, ?_⟩
    · rw [decodeLoop, More_end d (hdrop.trans htail)]
    · intro h; exact absurd rfl h
  | cons c r =>
    rw [htail] at hstop hdrop
    refine ⟨c :: r, ?_, ?_, fun _ => rfl⟩
    · rw [decodeLoop, More_cons d hdrop]
      rcases hstop with h | h <;> subst h <;> rfl
    · simp only [dropSpaces]
      split
      · rename_i hsp
        rcases hstop with h | h <;> subst h <;> simp [isSpace] at hsp
      · rfl

theorem decodeLoop_rest {Item : Type} (env : Env Item) {tail : List Nat} (hstop : NoMore tail) :
    ∀ (es : List (Element Item)) (ws : List Nat) (fuel : Nat) (d : Decoder) (res : List Item),
      allSpace ws = true → (∀ e ∈ es, e.WellFormed env) → es.length < fuel → d.err = none →
      d.tokenState = .tokenArrayComma → d.buf = ws ++ (restSource es ++ tail) →
      ∃ buf, decodeLoop env fuel d res = .done (res ++ es.map (fun e => e.item)) { d with buf := buf } ∧
        dropSpaces buf = dropSpaces tail ∧ (dropSpaces tail ≠ [] → buf = dropSpaces tail) := by
  intro es
  induction es with
  | nil =>
    intro ws fuel d res hws _ hfuel _ _ hbuf
    obtain ⟨f, rfl⟩ : ∃ f, fuel = f + 1 := ⟨fuel - 1, by simp at hfuel; omega⟩
    simpa using decodeLoop_stop env f d res hws hstop (by simpa [restSource] using hbuf)
  | cons e es ih =>
    intro ws fuel d res hws hwf hfuel herr hst hbuf
    obtain ⟨f, rfl⟩ : ∃ f, fuel = f + 1 := ⟨fuel - 1, by simp at hfuel; omega⟩
    obtain ⟨hpre, hpost, hrec⟩ := hwf e (by simp)
    have hdrop : dropSpaces d.buf = 44 :: (e.pre ++ (e.text ++ (e.post ++ (restSource es ++ tail)))) := by
      rw [hbuf, dropSpaces_append hws]
      simp [restSource, Element.source, dropSpaces, isSpace]
    have hdec := Decode_comma_record env { d with buf := 44 :: (e.pre ++ (e.text ++ (e.post ++ (restSource es ++ tail)))) }
      [] (e.post ++ (restSource es ++ tail)) rfl hpre hrec herr hst rfl
    have hmore : d.More = (true, { d with buf := 44 :: (e.pre ++ (e.text ++ (e.post ++ (restSource es ++ tail)))) }) := by
      rw [More_cons d hdrop]; rfl
    rw [decodeLoop, hmore]
    simp only [hdec]
    obtain ⟨buf, h1, h2, h3⟩ := ih e.post f
      { d with buf := e.post ++ (restSource es ++ tail), tokenState := .tokenArrayComma }
      (res ++ [e.item]) hpost (fun x hx => hwf x (by simp [hx])) (by simp at hfuel; omega) herr rfl rfl
    refine ⟨buf, ?_, h2, h3⟩
    have hd : ({ d with buf := buf } : Decoder) =
        { d with buf := buf, tokenState := .tokenArrayComma } := by
      cases d; simp_all
    simpa [hd] using h1

theorem decodeLoop_elems {Item : Type} (env : Env Item) {tail : List Nat} (hstop : NoMore tail)
    (es : List (Element Item)) (inner : List Nat) (fuel : Nat) (d : Decoder) (res : List Item)
    (hin : allSpace inner = true) (hwf : ∀ e ∈ es, e.WellFormed env) (hfuel : es.length < fuel)
    (herr : d.err = none) (hst : d.tokenState = .tokenArrayStart)
    (hbuf : d.buf = inner ++ (elemsSource es ++ tail)) :
    ∃ buf st, decodeLoop env fuel d res =
        .done (res ++ es.map (fun e => e.item)) { d with buf := buf, tokenState := st } ∧
      (st = .tokenArrayStart ∨ st = .tokenArrayComma) ∧
      dropSpaces buf = dropSpaces tail ∧ (dropSpaces tail ≠ [] → buf = dropSpaces tail) := by
  cases es with
  | nil =>
    obtain ⟨f, rfl⟩ : ∃ f, fuel = f + 1 := ⟨fuel - 1, by simp at hfuel; omega⟩
    obtain ⟨buf, h1, h2, h3⟩ := decodeLoop_stop env f d res hin hstop (by simpa [elemsSource] using hbuf)
    refine ⟨buf, .tokenArrayStart, ?_, Or.inl rfl, h2, h3⟩
    have hd : ({ d with buf := buf } : Decoder) =
        { d with buf := buf, tokenState := .tokenArrayStart } := by
      cases d; simp_all
    simpa [hd] using h1
  | cons e es =>
    obtain ⟨f, rfl⟩ : ∃ f, fuel = f + 1 := ⟨fuel - 1, by simp at hfuel; omega⟩
    obtain ⟨hpre, hpost, hrec⟩ := hwf e (by simp)
    obtain ⟨c, t, htext⟩ : ∃ c t, e.text = c :: t := by
      cases h : e.text with
      | nil => exact absurd h (wellFormedRecord_delimited hrec).ne_nil
      | cons c t => exact ⟨c, t, rfl⟩
    have hc : isSpace c = false := wellFormedRecord_head hrec c (by simp [htext])
    have hhead := delimited_head (htext ▸ wellFormedRecord_delimited hrec : Delimited (c :: t))
    have hdrop : dropSpaces d.buf = c :: (t ++ (e.post ++ (restSource es ++ tail))) := by
      rw [hbuf]
      simp only [elemsSource, Element.source, List.append_assoc]
      rw [dropSpaces_append hin, dropSpaces_append hpre, htext]
      simp [dropSpaces, hc]
    have hdec := Decode_record env { d with buf := c :: (t ++ (e.post ++ (restSource es ++ tail))) }
      [] (e.post ++ (restSource es ++ tail)) rfl hrec herr (Or.inl hst)
      (by simp [htext])
    have hmore : d.More = (true, { d with buf := c :: (t ++ (e.post ++ (restSource es ++ tail))) }) := by
      rw [More_cons d hdrop]; simp [hhead.1, hhead.2.1]
    rw [decodeLoop, hmore]
    simp only [hdec]
    obtain ⟨buf, h1, h2, h3⟩ := decodeLoop_rest env hstop es e.post f
      { d with buf := e.post ++ (restSource es ++ tail), tokenState := .tokenArrayComma }
      (res ++ [e.item]) hpost (fun x hx => hwf x (by simp [hx])) (by simp at hfuel; omega) herr rfl rfl
    refine ⟨buf, .tokenArrayComma, ?_, Or.inr rfl, h2, h3⟩
    simpa using h1

theorem restSource_length {Item : Type} (es : List (Element Item)) :
    es.length ≤ (restSource es).length := by
  induction es with
  | nil => simp
  | cons e es ih => simp only [restSource, List.length_cons, List.length_append]; omega

theorem elemsSource_length {Item : Type} (env : Env Item) (es : List (Element Item))
    (hwf : ∀ e ∈ es, e.WellFormed env) : es.length ≤ (elemsSource es).length := by
  cases es with
  | nil => simp
  | cons e es =>
    have hne := (wellFormedRecord_delimited (hwf e (by simp)).2.2).ne_nil
    have h1 : 1 ≤ e.text.length := by
      cases h : e.text with
      | nil => exact absurd h hne
      | cons c t => simp
    have h2 := restSource_length es
    simp only [elemsSource, Element.source, List.length_cons, List.length_append]
    omega

theorem unmarshalStreaming_elems {Item : Type} (env : Env Item) (n : Int) (hn : 0 < n)
    (hcap : n ≤ env.maxCap) (lead inner : List Nat) (es : List (Element Item))
    (tail : List Nat) (final : GoError) (hlead : allSpace lead = true)
    (hinner : allSpace inner = true) (hwf : ∀ e ∈ es, e.WellFormed env) (hstop : NoMore tail) :
    ∃ buf st, (st = .tokenArrayStart ∨ st = .tokenArrayComma) ∧
      dropSpaces buf = dropSpaces tail ∧ (dropSpaces tail ≠ [] → buf = dropSpaces tail) ∧
      unmarshalStreaming env ⟨lead ++ 91 :: (inner ++ (elemsSource es ++ tail)), final⟩ n =
        match (afterElems buf final st).Token env.unmarshalAny with
        | (.error err, _) => (.ret (none, some (.wrap "invalid end token" err)), .readFrom)
        | (.ok _, _) => (.ret (some (es.map (fun e => e.item)), none), .readFrom) := by
  have hfuel : es.length < (inner ++ (elemsSource es ++ tail)).length + 1 := by
    have := elemsSource_length env es hwf
    simp only [List.length_append]; omega
  obtain ⟨buf, st, hloop, hst, hb1, hb2⟩ := decodeLoop_elems env hstop es inner
    ((inner ++ (elemsSource es ++ tail)).length + 1)
    (afterElems (inner ++ (elemsSource es ++ tail)) final .tokenArrayStart) []
    hinner hwf hfuel rfl rfl rfl
  refine ⟨buf, st, hst, hb1, hb2, ?_⟩
  have htok : (Decoder.new (lead ++ 91 :: (inner ++ (elemsSource es ++ tail))) final).Token
      env.unmarshalAny = (.ok (.delim 91),
        afterElems (inner ++ (elemsSource es ++ tail)) final .tokenArrayStart) := by
    unfold Decoder.Token
    simp only [Decoder.new]
    rw [tokenLoop_skip _ _ hlead]
    simp [Decoder.tokenLoop, isSpace, Decoder.tokenValueAllowed, Decoder.pushToken, afterElems]
  have h0 : n ≠ 0 := by omega
  have h1 : ¬ (n < 0 ∨ env.maxCap < n) := by omega
  unfold unmarshalStreaming
  simp only [h0, h1, if_false, htok]
  simp only [afterElems] at hloop ⊢
  rw [hloop]
  simp

theorem recordAt_skip {Item : Type} (env : Env Item) (final : GoError) {ws : List Nat}
    (hws : allSpace ws = true) (l : List Nat) :
    recordAt env final (ws ++ l) = recordAt env final l := by
  unfold recordAt readValue
  rw [scanValue_skip hws, Nat.zero_add]
  have := scanValue_shift Scanner.reset 0 ws.length l
  rw [Nat.zero_add] at this
  rw [this]
  cases scanValue Scanner.reset 0 l with
  | complete n =>
    simp only [ScanOutcome.shift]
    rw [Nat.add_comm, List.take_append, dropSpaces_append hws]
  | failed e => rfl
  | exhausted s n =>
    simp only [ScanOutcome.shift, nonSpace_append hws]
    by_cases hf : final = .eof
    · simp only [hf, if_true]
      by_cases h1 : (s.next 32).2 = .scanEnd
      · simp only [h1, if_true]
        rw [Nat.add_comm, List.take_append, dropSpaces_append hws]
      · simp only [h1, if_false]
        by_cases hns : nonSpace l = true <;> simp [hns]
    · simp only [hf, if_false]

theorem recordAt_dropSpaces {Item : Type} (env : Env Item) (final : GoError) (l : List Nat) :
    recordAt env final (dropSpaces l) = recordAt env final l := by
  obtain ⟨ws, h1, h2⟩ := dropSpaces_split l
  conv => rhs; rw [h2]
  rw [recordAt_skip env final h1]

theorem Decode_fails {Item : Type} (env : Env Item) (d : Decoder) {e : GoError}
    (herr : d.err = none)
    (hst : d.tokenState = .tokenArrayStart ∨ d.tokenState = .tokenArrayValue)
    (hbad : recordAt env d.final d.buf = .error e) :
    (d.Decode env.unmarshalItem).1 = .error e := by
  unfold recordAt at hbad
  unfold Decoder.Decode
  rcases hst with hst | hst <;>
  · simp only [herr, Decoder.tokenPrepareForDecode, hst, Decoder.tokenValueAllowed]
    cases hrv : readValue d.final d.buf with
    | error e1 => rw [hrv] at hbad; simp at hbad; simp [hbad]
    | ok n => rw [hrv] at hbad; simpa using hbad

theorem Decode_comma_fails {Item : Type} (env : Env Item) (d : Decoder) {e : GoError}
    (ws : List Nat) {bad : List Nat} (hws : allSpace ws = true) (herr : d.err = none)
    (hst : d.tokenState = .tokenArrayComma) (hbuf : d.buf = ws ++ 44 :: bad)
    (hbad : recordAt env d.final bad = .error e) :
    (d.Decode env.unmarshalItem).1 = .error e := by
  have h := Decode_fails env { d with buf := bad, tokenState := .tokenArrayValue } herr
    (Or.inr rfl) hbad
  unfold Decoder.Decode at h ⊢
  simp only [herr, Decoder.tokenPrepareForDecode, hst, Decoder.peek, hbuf, dropSpaces_append hws]
  simpa [dropSpaces, isSpace, Decoder.tokenPrepareForDecode, Decoder.tokenValueAllowed, herr]
    using h

theorem decodeLoop_bad_rest {Item : Type} (env : Env Item) {bad : List Nat} {e : GoError} :
    ∀ (es : List (Element Item)) (ws : List Nat) (fuel : Nat) (d : Decoder) (res : List Item),
      allSpace ws = true → (∀ x ∈ es, x.WellFormed env) → es.length < fuel → d.err = none →
      d.tokenState = .tokenArrayComma → d.buf = ws ++ 44 :: (goodSource es ++ bad) →
      recordAt env d.final bad = .error e →
      ∃ d1, decodeLoop env fuel d res = .failed e d1 := by
  intro es
  induction es with
  | nil =>
    intro ws fuel d res hws _ hfuel herr hst hbuf hbad
    obtain ⟨f, rfl⟩ : ∃ f, fuel = f + 1 := ⟨fuel - 1, by simp at hfuel; omega⟩
    have hdrop : dropSpaces d.buf = 44 :: bad := by
      rw [hbuf, dropSpaces_append hws]; simp [goodSource, dropSpaces, isSpace]
    have hmore : d.More = (true, { d with buf := 44 :: bad }) := by
      rw [More_cons d hdrop]; rfl
    have hdec := Decode_comma_fails env { d with buf := 44 :: bad } [] rfl herr hst rfl hbad
    obtain ⟨d2, hD⟩ : ∃ d2, Decoder.Decode { d with buf := 44 :: bad } env.unmarshalItem
        = (.error e, d2) := ⟨_, Prod.ext hdec rfl⟩
    rw [decodeLoop, hmore]
    simp only [hD]
    exact ⟨d2, rfl⟩
  | cons x es ih =>
    intro ws fuel d res hws hwf hfuel herr hst hbuf hbad
    obtain ⟨f, rfl⟩ : ∃ f, fuel = f + 1 := ⟨fuel - 1, by simp at hfuel; omega⟩
    obtain ⟨hpre, hpost, hrec⟩ := hwf x (by simp)
    have hdrop : dropSpaces d.buf =
        44 :: (x.pre ++ (x.text ++ (x.post ++ 44 :: (goodSource es ++ bad)))) := by
      rw [hbuf, dropSpaces_append hws]
      simp [goodSource, Element.source, dropSpaces, isSpace]
    have hmore : d.More = (true, { d with buf :=
        44 :: (x.pre ++ (x.text ++ (x.post ++ 44 :: (goodSource es ++ bad)))) }) := by
      rw [More_cons d hdrop]; rfl
    have hdec := Decode_comma_record env { d with buf :=
        44 :: (x.pre ++ (x.text ++ (x.post ++ 44 :: (goodSource es ++ bad)))) }
      [] (x.post ++ 44 :: (goodSource es ++ bad)) rfl hpre hrec herr hst rfl
    rw [decodeLoop, hmore]
    simp only [hdec]
    exact ih x.post f _ (res ++ [x.item]) hpost (fun y hy => hwf y (by simp [hy]))
      (by simp at hfuel; omega) herr rfl rfl hbad

theorem decodeLoop_bad {Item : Type} (env : Env Item) {bad : List Nat} {e : GoError}
    (es : List (Element Item)) (inner : List Nat) (fuel : Nat) (d : Decoder) (res : List Item)
    (hin : allSpace inner = true) (hwf : ∀ x ∈ es, x.WellFormed env) (hfuel : es.length < fuel)
    (herr : d.err = none) (hst : d.tokenState = .tokenArrayStart)
    (hbuf : d.buf = inner ++ (goodSource es ++ bad))
    (hopen : es = [] → ∃ c t, dropSpaces bad = c :: t ∧ c ≠ 93 ∧ c ≠ 125)
    (hbad : recordAt env d.final bad = .error e) :
    ∃ d1, decodeLoop env fuel d res = .failed e d1 := by
  obtain ⟨f, rfl⟩ : ∃ f, fuel = f + 1 := ⟨fuel - 1, by omega⟩
  cases es with
  | nil =>
    obtain ⟨c, t, hct, h93, h125⟩ := hopen rfl
    have hdrop : dropSpaces d.buf = c :: t := by
      rw [hbuf, dropSpaces_append hin]; simpa [goodSource] using hct
    have hmore : d.More = (true, { d with buf := c :: t }) := by
      rw [More_cons d hdrop]; simp [h93, h125]
    have hbad2 : recordAt env d.final (c :: t) = .error e := by
      rw [← hct, recordAt_dropSpaces]; exact hbad
    have hdec := Decode_fails env { d with buf := c :: t } herr (Or.inl hst) hbad2
    obtain ⟨d2, hD⟩ : ∃ d2, Decoder.Decode { d with buf := c :: t } env.unmarshalItem
        = (.error e, d2) := ⟨_, Prod.ext hdec rfl⟩
    rw [decodeLoop, hmore]
    simp only [hD]
    exact ⟨d2, rfl⟩
  | cons x es =>
    obtain ⟨hpre, hpost, hrec⟩ := hwf x (by simp)
    obtain ⟨c, t, htext⟩ : ∃ c t, x.text = c :: t := by
      cases h : x.text with
      | nil => exact absurd h (wellFormedRecord_delimited hrec).ne_nil
      | cons c t => exact ⟨c, t, rfl⟩
    have hc : isSpace c = false := wellFormedRecord_head hrec c (by simp [htext])
    have hhead := delimited_head (htext ▸ wellFormedRecord_delimited hrec : Delimited (c :: t))
    have hdrop : dropSpaces d.buf = c :: (t ++ (x.post ++ 44 :: (goodSource es ++ bad))) := by
      rw [hbuf]
      simp only [goodSource, Element.source, List.append_assoc]
      rw [dropSpaces_append hin, dropSpaces_append hpre, htext]
      simp [dropSpaces, hc]
    have hdec := Decode_record env
      { d with buf := c :: (t ++ (x.post ++ 44 :: (goodSource es ++ bad))) }
      [] (x.post ++ 44 :: (goodSource es ++ bad)) rfl hrec herr (Or.inl hst)
      (by simp [htext])
    have hmore : d.More = (true, { d with buf :=
        c :: (t ++ (x.post ++ 44 :: (goodSource es ++ bad))) }) := by
      rw [More_cons d hdrop]; simp [hhead.1, hhead.2.1]
    rw [decodeLoop, hmore]
    simp only [hdec]
    exact decodeLoop_bad_rest env es x.post f _ (res ++ [x.item]) hpost
      (fun y hy => hwf y (by simp [hy])) (by simp at hfuel; omega) herr rfl rfl hbad

/-! ## Lemmas: the element loop terminates -/

theorem dropSpaces_length_le (l : List Nat) : (dropSpaces l).length ≤ l.length := by
  induction l with
  | nil => simp [dropSpaces]
  | cons c rest ih =>
    simp only [dropSpaces]
    split
    · simp only [List.length_cons]; omega
    · exact Nat.le_refl _

theorem peek_length (d : Decoder) : d.peek.2.buf.length ≤ d.buf.length := by
  unfold Decoder.peek
  have := dropSpaces_length_le d.buf
  split
  · exact Nat.le_refl _
  · rename_i c rest h
    rw [h] at this
    exact this

theorem peek_ok_buf (d : Decoder) {c : Nat} {d1 : Decoder} (h : d.peek = (.ok c, d1)) :
    d1.buf ≠ [] := by
  unfold Decoder.peek at h
  split at h
  · simp at h
  · simp only [Prod.mk.injEq, Except.ok.injEq] at h
    rw [← h.2]
    simp

theorem More_length (d : Decoder) : d.More.2.buf.length ≤ d.buf.length := by
  have := peek_length d
  unfold Decoder.More
  split
  · rename_i c d1 h; rw [h] at this; exact this
  · rename_i e d1 h; rw [h] at this; exact this

theorem ite_opens {p : Prop} [Decidable p] {a b : Scanner × ScanCode}
    (ha : a.2.opens) (hb : b.2.opens) : (if p then a else b).2.opens := by
  split <;> assumption

theorem json.Scanner.stateBeginValue_opens (s : Scanner) (c : Nat) :
    (s.stateBeginValue c).2.opens := by
  unfold Scanner.stateBeginValue
  repeat' apply ite_opens
  all_goals first
    | exact Or.inl rfl
    | exact Or.inr rfl

theorem scanValue_first (c : Nat) (rest : List Nat) :
    (∃ e, scanValue Scanner.reset 0 (c :: rest) = .failed e) ∨
      ∃ s1, scanValue Scanner.reset 0 (c :: rest) = (scanValue s1 0 rest).shift 1 := by
  have hshift : ∀ s1, scanValue s1 (0 + 1) rest = (scanValue s1 0 rest).shift 1 :=
    fun s1 => scanValue_shift s1 0 1 rest
  rw [scanValue]
  generalize hnx : Scanner.reset.next c = nx
  obtain ⟨s1, code⟩ := nx
  have hcode : code ≠ .scanEnd ∧ code ≠ .scanEndObject ∧ code ≠ .scanEndArray := by
    have h2 : code = (Scanner.stateBeginValue Scanner.reset c).2 := by
      have h3 : Scanner.next Scanner.reset c = Scanner.stateBeginValue Scanner.reset c := rfl
      rw [← h3, hnx]
    have h4 := Scanner.stateBeginValue_opens Scanner.reset c
    rw [← h2] at h4
    rcases h4 with h | h
    · refine ⟨?_, ?_, ?_⟩ <;> intro hc <;> subst hc <;> simp [ScanCode.goesOn] at h
    · subst h; simp
  cases code with
  | scanEnd => exact absurd rfl hcode.1
  | scanEndObject => exact absurd rfl hcode.2.1
  | scanEndArray => exact absurd rfl hcode.2.2
  | scanError => exact Or.inl ⟨_, rfl⟩
  | _ => exact Or.inr ⟨s1, hshift s1⟩

theorem readValue_ok_pos {final : GoError} {buf : List Nat} {n : Nat}
    (h : readValue final buf = .ok n) : 0 < n ∧ buf ≠ [] := by
  cases buf with
  | nil =>
    unfold readValue at h
    have hsp : (Scanner.reset.next 32).2 = .scanSkipSpace := rfl
    simp only [scanValue, hsp] at h
    split_ifs at h
    all_goals simp_all
  | cons c rest =>
    refine ⟨?_, by simp⟩
    unfold readValue at h
    rcases scanValue_first c rest with ⟨e, he⟩ | ⟨s1, hs1⟩
    · rw [he] at h; simp at h
    · rw [hs1] at h
      cases hsc : scanValue s1 0 rest with
      | complete m =>
        rw [hsc] at h
        simp only [ScanOutcome.shift, Except.ok.injEq] at h
        omega
      | failed e => rw [hsc] at h; simp [ScanOutcome.shift] at h
      | exhausted s m =>
        rw [hsc] at h
        simp only [ScanOutcome.shift] at h
        split at h
        · split at h
          · simp only [Except.ok.injEq] at h; omega
          · split at h <;> simp at h
        · simp at h

theorem tokenPrepareForDecode_length (d : Decoder) :
    d.tokenPrepareForDecode.2.buf.length ≤ d.buf.length := by
  have hp := peek_length d
  unfold Decoder.tokenPrepareForDecode
  split
  · split
    · rename_i e d1 h; rw [h] at hp; exact hp
    · rename_i c d1 h
      rw [h] at hp
      split
      · exact hp
      · simp only [List.length_tail]; simp only at hp; omega
  · split
    · rename_i e d1 h; rw [h] at hp; exact hp
    · rename_i c d1 h
      rw [h] at hp
      split
      · exact hp
      · simp only [List.length_tail]; simp only at hp; omega
  · exact Nat.le_refl _

theorem tokenValueEnd_buf (d : Decoder) : d.tokenValueEnd.buf = d.buf := by
  unfold Decoder.tokenValueEnd
  split <;> rfl

theorem Decode_ok_length {α : Type} (d : Decoder) (unmarshal : List Nat → Except GoError α)
    {x : α} {d2 : Decoder} (h : d.Decode unmarshal = (.ok x, d2)) :
    d2.buf.length < d.buf.length := by
  have hp := tokenPrepareForDecode_length d
  unfold Decoder.Decode at h
  split at h
  · simp at h
  · split at h
    · simp at h
    · rename_i d1 hprep
      rw [hprep] at hp
      simp only at hp
      split at h
      · simp at h
      · split at h
        · simp at h
        · rename_i n hrv
          obtain ⟨hn, hne⟩ := readValue_ok_pos hrv
          simp only [Prod.mk.injEq] at h
          rw [← h.2, tokenValueEnd_buf]
          have : 0 < d1.buf.length := List.length_pos.mpr hne
          simp only [List.length_drop]
          omega

theorem decodeLoop_fuel {Item : Type} (env : Env Item) :
    ∀ (fuel : Nat) (d : Decoder) (res : List Item), d.buf.length < fuel →
      decodeLoop env fuel d res ≠ .outOfFuel := by
  intro fuel
  induction fuel with
  | zero => intro d res h; omega
  | succ f ih =>
    intro d res h
    have hm := More_length d
    rw [decodeLoop]
    split
    · simp
    · rename_i d1 hmore
      rw [hmore] at hm
      simp only at hm
      split
      · simp
      · rename_i item d2 hdec
        have := Decode_ok_length d1 env.unmarshalItem hdec
        exact ih d2 _ (by omega)

/-! ## Lemmas: a record nested too deep -/

theorem Syn.nestedArrays (k : Nat) :
    Syn .value (k + 1) (List.replicate (k + 1) 91 ++ List.replicate (k + 1) 93) := by
  induction k with
  | zero => exact Syn.emptyArray 0 [] rfl
  | succ k ih =>
    have h := Syn.array (k + 1) _ (Syn.element (k + 1) [] _ [] rfl rfl ih)
    have e : 91 :: (([] ++ ((List.replicate (k + 1) 91 ++ List.replicate (k + 1) 93) ++ [])) ++ [93])
        = List.replicate (k + 1 + 1) 91 ++ List.replicate (k + 1 + 1) 93 := by
      rw [List.replicate_succ (n := k + 1) (a := 91), List.replicate_succ' (n := k + 1) (a := 93)]
      simp
    rw [← e]
    exact h

theorem nestedRecord_syn (k : Nat) : Syn .value (k + 2) (nestedRecord (k + 1)) := by
  have hk : Chars [97] := .plain _ _ (by decide) (by decide) (by decide) .nil
  have h := Syn.object (k + 1) _
    (Syn.member (k + 1) [] [97] [] [] _ [] rfl rfl rfl rfl hk (Syn.nestedArrays k))
  have e : nestedRecord (k + 1) = 123 :: (([] ++ 34 :: ([97] ++ 34 :: ([] ++ 58 :: ([] ++
      ((List.replicate (k + 1) 91 ++ List.replicate (k + 1) 93) ++ []))))) ++ [125]) := by
    simp [nestedRecord]
  rw [e]
  exact h

theorem scanValue_opens (l : List Nat) :
    ∀ (k : Nat) (s : Scanner) (n : Nat), s.step = .stateBeginValueOrEmpty →
      s.parseState.length + k ≤ maxNestingDepth →
      scanValue s n (List.replicate k 91 ++ l) =
        scanValue { s with parseState := List.replicate k .parseArrayValue ++ s.parseState }
          (n + k) l := by
  intro k
  induction k with
  | zero => intro s n _ _; rfl
  | succ k ih =>
    intro s n hs hlen
    have h1 := next_openArray (s := s) (Or.inr hs) (by omega)
    rw [List.replicate_succ, List.cons_append, scanValue_cons h1 rfl,
      ih _ _ rfl (by simp only [List.length_cons]; omega)]
    congr 1
    · cases s
      simp only at hs
      subst hs
      simp only [Scanner.mk.injEq, true_and, and_true]
      rw [List.replicate_succ' (n := k), List.append_assoc]
      rfl
    · omega

theorem scanValue_tooDeep {s : Scanner} (hs : s.step = .stateBeginValueOrEmpty)
    (hlen : maxNestingDepth < s.parseState.length + 1) (n : Nat) (l : List Nat) :
    scanValue s n (91 :: l) = .failed (some (.invalidChar 91 "exceeded max depth")) := by
  have h : ¬ (s.parseState.length + 1 ≤ maxNestingDepth) := by omega
  have hn : s.next 91 = (⟨.stateError, s.endTop, .parseArrayValue :: s.parseState,
      some (.invalidChar 91 "exceeded max depth")⟩, .scanError) := by
    simp [Scanner.next, hs, Scanner.stateBeginValue, isSpace, Scanner.pushParseState, h,
      Scanner.error]
  rw [scanValue, hn]

theorem scanValue_nestedRecord (m j : Nat) (hm : maxNestingDepth = m + 2) (rest : List Nat) :
    scanValue Scanner.reset 0 (nestedRecord (m + 2 + j) ++ rest) =
      .failed (some (.invalidChar 91 "exceeded max depth")) := by
  have hrep : List.replicate (m + 2 + j) 91 =
      91 :: (List.replicate m 91 ++ 91 :: List.replicate j 91) := by
    have : m + 2 + j = 1 + (m + (1 + j)) := by omega
    rw [this, List.replicate_add, List.replicate_add, List.replicate_add]
    rfl
  have e : nestedRecord (m + 2 + j) ++ rest = 123 :: 34 :: 97 :: 34 :: 58 :: 91 ::
      (List.replicate m 91 ++ (91 :: (List.replicate j 91 ++
        (List.replicate (m + 2 + j) 93 ++ (125 :: rest))))) := by
    unfold nestedRecord
    rw [hrep]
    simp
  have h1 : Scanner.reset.next 123 =
      (⟨.stateBeginStringOrEmpty, false, [.parseObjectKey], none⟩, .scanBeginObject) :=
    next_openObject (s := Scanner.reset) (Or.inl rfl) (by simp [Scanner.reset]; omega)
  have h2 : Scanner.next ⟨.stateBeginStringOrEmpty, false, [.parseObjectKey], none⟩ 34 =
      (⟨.stateInString, false, [.parseObjectKey], none⟩, .scanBeginLiteral) := rfl
  have h3 : Scanner.next ⟨.stateInString, false, [.parseObjectKey], none⟩ 97 =
      (⟨.stateInString, false, [.parseObjectKey], none⟩, .scanContinue) := rfl
  have h4 : Scanner.next ⟨.stateInString, false, [.parseObjectKey], none⟩ 34 =
      (⟨.stateEndValue, false, [.parseObjectKey], none⟩, .scanContinue) := rfl
  have h5 : Scanner.next ⟨.stateEndValue, false, [.parseObjectKey], none⟩ 58 =
      (⟨.stateBeginValue, false, [.parseObjectValue], none⟩, .scanObjectKey) := rfl
  have h6 : Scanner.next ⟨.stateBeginValue, false, [.parseObjectValue], none⟩ 91 =
      (⟨.stateBeginValueOrEmpty, false, [.parseArrayValue, .parseObjectValue], none⟩,
        .scanBeginArray) :=
    next_openArray (s := ⟨.stateBeginValue, false, [.parseObjectValue], none⟩)
      (Or.inl rfl) (by simp only [List.length_cons, List.length_nil]; omega)
  rw [e, scanValue_cons h1 rfl, scanValue_cons h2 rfl, scanValue_cons h3 rfl,
    scanValue_cons h4 rfl, scanValue_cons h5 rfl, scanValue_cons h6 rfl,
    scanValue_opens _ m _ _ rfl (by simp only [List.length_cons, List.length_nil]; omega),
    scanValue_tooDeep rfl (by
      simp only [List.length_append, List.length_replicate, List.length_cons, List.length_nil]
      omega)]

/-! ## Example data is well formed -/

theorem btcText_isObject : IsObject btcText := by
  refine ⟨[34, 105, 100, 34, 58, 34, 98, 116, 99, 34], rfl, Or.inr ?_⟩
  have hk : Chars [105, 100] :=
    .plain _ _ (by decide) (by decide) (by decide)
      (.plain _ _ (by decide) (by decide) (by decide) .nil)
  have hv : Chars [98, 116, 99] :=
    .plain _ _ (by decide) (by decide) (by decide)
      (.plain _ _ (by decide) (by decide) (by decide)
        (.plain _ _ (by decide) (by decide) (by decide) .nil))
  exact Syn.member _ [] [105, 100] [] [] [34, 98, 116, 99, 34] [] rfl rfl rfl rfl hk
    (Syn.string _ [98, 116, 99] hv)

theorem ethText_isObject : IsObject ethText := by
  refine ⟨[34, 105, 100, 34, 58, 34, 101, 116, 104, 34, 44, 34, 112, 34, 58,
    91, 49, 46, 53, 101, 51, 44, 110, 117, 108, 108, 93], rfl, Or.inr ?_⟩
  have hid : Chars [105, 100] :=
    .plain _ _ (by decide) (by decide) (by decide)
      (.plain _ _ (by decide) (by decide) (by decide) .nil)
  have heth : Chars [101, 116, 104] :=
    .plain _ _ (by decide) (by decide) (by decide)
      (.plain _ _ (by decide) (by decide) (by decide)
        (.plain _ _ (by decide) (by decide) (by decide) .nil))
  have hp : Chars [112] := .plain _ _ (by decide) (by decide) (by decide) .nil
  have hnum : Number [49, 46, 53, 101, 51] :=
    Number.mk [] [49] [46, 53] [101, 51] (Or.inl rfl) (.digits 49 [] rfl rfl)
      (.digits 53 [] rfl rfl) (.digits 101 [] 51 [] (Or.inl rfl) (Or.inl rfl) rfl rfl)
  have harr : Syn .value (9998 + 1) [91, 49, 46, 53, 101, 51, 44, 110, 117, 108, 108, 93] :=
    Syn.array 9998 [49, 46, 53, 101, 51, 44, 110, 117, 108, 108]
      (Syn.elementCons _ [] [49, 46, 53, 101, 51] [] [110, 117, 108, 108] rfl rfl
        (Syn.number _ _ hnum) (Syn.element _ [] [110, 117, 108, 108] [] rfl rfl (Syn.null _)))
  exact Syn.memberCons _ [] [105, 100] [] [] [34, 101, 116, 104, 34] []
    [34, 112, 34, 58, 91, 49, 46, 53, 101, 51, 44, 110, 117, 108, 108, 93]
    rfl rfl rfl rfl hid (Syn.string _ [101, 116, 104] heth)
    (Syn.member _ [] [112] [] [] [91, 49, 46, 53, 101, 51, 44, 110, 117, 108, 108, 93] []
      rfl rfl rfl rfl hp harr)

theorem exampleBtc_wellFormed : exampleBtc.WellFormed exampleEnv :=
  ⟨rfl, rfl, btcText_isObject, rfl⟩

theorem exampleEth_wellFormed : exampleEth.WellFormed exampleEnv :=
  ⟨rfl, rfl, ethText_isObject, rfl⟩

theorem examples_wellFormed :
    ∀ e ∈ [exampleBtc, exampleEth], e.WellFormed exampleEnv := by
  intro e he
  simp only [List.mem_cons, List.mem_singleton, List.not_mem_nil, or_false] at he
  rcases he with rfl | rfl
  · exact exampleBtc_wellFormed
  · exact exampleEth_wellFormed

/-! ## Lemmas: whole calls of the decoder -/

theorem unmarshalStreaming_closed {Item : Type} (env : Env Item) (n : Int) (hn : 0 < n)
    (hcap : n ≤ env.maxCap) (lead inner : List Nat) (elems : List (Element Item))
    (trailing : List Nat) (final : GoError) (hlead : allSpace lead = true)
    (hinner : allSpace inner = true) (hwf : ∀ e ∈ elems, e.WellFormed env) :
    unmarshalStreaming env ⟨arraySource lead inner elems ++ trailing, final⟩ n =
      (.ret (some (elems.map (fun e => e.item)), none), .readFrom) := by
  obtain ⟨buf, st, hst, _, hb2, heq⟩ := unmarshalStreaming_elems env n hn hcap lead inner elems
    (93 :: trailing) final hlead hinner hwf (by simp [NoMore, dropSpaces, isSpace])
  have hbuf : buf = 93 :: trailing := by
    simpa [dropSpaces, isSpace] using hb2 (by simp [dropSpaces, isSpace])
  have hsrc : arraySource lead inner elems ++ trailing =
      lead ++ 91 :: (inner ++ (elemsSource elems ++ 93 :: trailing)) := by
    simp [arraySource]
  rw [hsrc, heq, hbuf]
  rcases hst with h | h <;> subst h <;>
    simp [afterElems, Decoder.Token, Decoder.tokenLoop, isSpace, Decoder.popToken,
      Decoder.tokenValueEnd]

theorem goodSource_length {Item : Type} (es : List (Element Item)) :
    es.length ≤ (goodSource es).length := by
  induction es with
  | nil => simp
  | cons e es ih => simp only [goodSource, List.length_cons, List.length_append]; omega

theorem unmarshalStreaming_element_error {Item : Type} (env : Env Item) (n : Int) (hn : 0 < n)
    (hcap : n ≤ env.maxCap) (lead inner : List Nat) (good : List (Element Item))
    (bad : List Nat) (final : GoError) (e : GoError) (hlead : allSpace lead = true)
    (hinner : allSpace inner = true) (hwf : ∀ x ∈ good, x.WellFormed env)
    (hopen : good = [] → ∃ c t, dropSpaces bad = c :: t ∧ c ≠ 93 ∧ c ≠ 125)
    (hbad : recordAt env final bad = .error e) :
    (unmarshalStreaming env ⟨lead ++ 91 :: (inner ++ (goodSource good ++ bad)), final⟩ n).1 =
      .ret (none, some (.wrap "decoding coins market item" e)) := by
  have hfuel : good.length < (inner ++ (goodSource good ++ bad)).length + 1 := by
    have := goodSource_length good
    simp only [List.length_append]; omega
  obtain ⟨d1, hloop⟩ := decodeLoop_bad env good inner
    ((inner ++ (goodSource good ++ bad)).length + 1)
    (afterElems (inner ++ (goodSource good ++ bad)) final .tokenArrayStart) []
    hinner hwf hfuel rfl rfl rfl hopen hbad
  have htok : (Decoder.new (lead ++ 91 :: (inner ++ (goodSource good ++ bad))) final).Token
      env.unmarshalAny = (.ok (.delim 91),
        afterElems (inner ++ (goodSource good ++ bad)) final .tokenArrayStart) := by
    unfold Decoder.Token
    simp only [Decoder.new]
    rw [tokenLoop_skip _ _ hlead]
    simp [Decoder.tokenLoop, isSpace, Decoder.tokenValueAllowed, Decoder.pushToken, afterElems]
  have h0 : n ≠ 0 := by omega
  have h1 : ¬ (n < 0 ∨ env.maxCap < n) := by omega
  unfold unmarshalStreaming
  simp only [h0, h1, if_false, htok]
  simp only [afterElems] at hloop ⊢
  rw [hloop]

theorem Token_scalar_fails {Item : Type} (env : Env Item) (final : GoError) (c : Nat)
    (rest : List Nat) (e : GoError) (hc : isSpace c = false) (h91 : c ≠ 91) (h123 : c ≠ 123)
    (h93 : c ≠ 93) (h125 : c ≠ 125) (h58 : c ≠ 58) (h44 : c ≠ 44)
    (hbad : scalarAt env final (c :: rest) = .error e) :
    (Decoder.tokenLoop env.unmarshalAny (Decoder.new (c :: rest) final) (c :: rest)).1 =
      .error e := by
  have hdec : (Decoder.Decode (Decoder.new (c :: rest) final)
      (fun text => (env.unmarshalAny text).map (fun _ => text))).1 = .error e := by
    unfold scalarAt at hbad
    unfold Decoder.Decode
    simp only [Decoder.new, Decoder.tokenPrepareForDecode, Decoder.tokenValueAllowed]
    cases hrv : readValue final (c :: rest) with
    | error e1 => rw [hrv] at hbad; simp at hbad; simp [hbad]
    | ok n =>
      rw [hrv] at hbad
      simp only at hbad
      simp [hbad, Except.map]
  rw [Decoder.tokenLoop]
  simp only [hc, h91, h93, h123, h125, h58, h44, if_false, Decoder.new,
    Decoder.tokenValueAllowed] at hdec ⊢
  cases hD : Decoder.Decode
      { buf := c :: rest, final := final, tokenState := .tokenTopValue, tokenStack := [],
        err := none }
      (fun text => (env.unmarshalAny text).map (fun _ => text)) with
  | mk r d1 =>
    rw [hD] at hdec
    simp only at hdec
    subst hdec
    simp [hD]

theorem Token_scalar_ok {Item : Type} (env : Env Item) (final : GoError) (c : Nat)
    (rest : List Nat) (hc : isSpace c = false) (h91 : c ≠ 91) (h123 : c ≠ 123)
    (h93 : c ≠ 93) (h125 : c ≠ 125) (h58 : c ≠ 58) (h44 : c ≠ 44)
    (hok : scalarAt env final (c :: rest) = .ok ()) :
    ∃ tok, (Decoder.tokenLoop env.unmarshalAny (Decoder.new (c :: rest) final) (c :: rest)).1 =
      .ok tok := by
  have hdec : ∃ x, (Decoder.Decode (Decoder.new (c :: rest) final)
      (fun text => (env.unmarshalAny text).map (fun _ => text))).1 = .ok x := by
    unfold scalarAt at hok
    unfold Decoder.Decode
    simp only [Decoder.new, Decoder.tokenPrepareForDecode, Decoder.tokenValueAllowed]
    cases hrv : readValue final (c :: rest) with
    | error e1 => rw [hrv] at hok; simp at hok
    | ok n =>
      rw [hrv] at hok
      simp only at hok
      simp [hok, Except.map]
  obtain ⟨x, hdec⟩ := hdec
  rw [Decoder.tokenLoop]
  simp only [hc, h91, h93, h123, h125, h58, h44, if_false, Decoder.new,
    Decoder.tokenValueAllowed] at hdec ⊢
  cases hD : Decoder.Decode
      { buf := c :: rest, final := final, tokenState := .tokenTopValue, tokenStack := [],
        err := none }
      (fun text => (env.unmarshalAny text).map (fun _ => text)) with
  | mk r d1 =>
    rw [hD] at hdec
    simp only at hdec
    subst hdec
    exact ⟨.value x, by simp [hD]⟩

theorem tokenLoop_top_buf (ua : List Nat → Except GoError Unit) (final : GoError) (c : Nat)
    (rest b1 b2 : List Nat) (hc : isSpace c = false) :
    (Decoder.tokenLoop ua
      { buf := b1, final := final, tokenState := .tokenTopValue, tokenStack := [],
        err := none } (c :: rest)).1 =
    (Decoder.tokenLoop ua
      { buf := b2, final := final, tokenState := .tokenTopValue, tokenStack := [],
        err := none } (c :: rest)).1 := by
  rw [Decoder.tokenLoop, Decoder.tokenLoop]
  simp only [hc, if_false, Decoder.tokenValueAllowed]
  by_cases h91 : c = 91
  · simp [h91]
  by_cases h93 : c = 93
  · simp [h93, Decoder.tokenError]
  by_cases h123 : c = 123
  · simp [h123]
  by_cases h125 : c = 125
  · simp [h125, Decoder.tokenError]
  by_cases h58 : c = 58
  · simp [h58, Decoder.tokenError]
  by_cases h44 : c = 44
  · simp [h44, Decoder.tokenError]
  simp only [h91, h93, h123, h125, h58, h44, if_false]
  rfl

theorem unmarshalStreaming_start_error {Item : Type} (env : Env Item) (n : Int) (hn : 0 < n)
    (hcap : n ≤ env.maxCap) (data : List Nat) (final e : GoError)
    (htok : ((Decoder.new data final).Token env.unmarshalAny).1 = .error e) :
    (unmarshalStreaming env ⟨data, final⟩ n).1 =
      .ret (none, some (.wrap "invalid start token" e)) := by
  have h0 : n ≠ 0 := by omega
  have h1 : ¬ (n < 0 ∨ env.maxCap < n) := by omega
  unfold unmarshalStreaming
  simp only [h0, h1, if_false]
  cases hT : Decoder.Token env.unmarshalAny (Decoder.new data final) with
  | mk r d =>
    rw [hT] at htok
    simp only at htok
    subst htok
    rfl

theorem unmarshalStreaming_started {Item : Type} (env : Env Item) (n : Int) (hn : 0 < n)
    (hcap : n ≤ env.maxCap) (data : List Nat) (final : GoError) (tok : Token)
    (htok : ((Decoder.new data final).Token env.unmarshalAny).1 = .ok tok) :
    (∃ res, (unmarshalStreaming env ⟨data, final⟩ n).1 = .ret (some res, none)) ∨
      (∃ e, (unmarshalStreaming env ⟨data, final⟩ n).1 =
        .ret (none, some (.wrap "decoding coins market item" e))) ∨
      ∃ e, (unmarshalStreaming env ⟨data, final⟩ n).1 =
        .ret (none, some (.wrap "invalid end token" e)) := by
  have h0 : n ≠ 0 := by omega
  have h1 : ¬ (n < 0 ∨ env.maxCap < n) := by omega
  unfold unmarshalStreaming
  simp only [h0, h1, if_false]
  cases hT : Decoder.Token env.unmarshalAny (Decoder.new data final) with
  | mk r d =>
    rw [hT] at htok
    simp only at htok
    subst htok
    dsimp only
    have hf := decodeLoop_fuel env (d.buf.length + 1) d [] (Nat.lt_succ_self _)
    cases hL : decodeLoop env (d.buf.length + 1) d [] with
    | outOfFuel => exact absurd hL hf
    | failed e d1 => exact Or.inr (Or.inl ⟨e, rfl⟩)
    | done res d1 =>
      dsimp only
      cases hT2 : Decoder.Token env.unmarshalAny d1 with
      | mk r2 d2 =>
        cases r2 with
        | error e => exact Or.inr (Or.inr ⟨e, rfl⟩)
        | ok tok2 => exact Or.inl ⟨res, rfl⟩

theorem Token_start_ok {Item : Type} (env : Env Item) (lead : List Nat) (final : GoError)
    (hlead : allSpace lead = true) (c : Nat) (rest : List Nat)
    (hc : c = 91 ∨ c = 123 ∨ (isSpace c = false ∧ c ≠ 93 ∧ c ≠ 125 ∧ c ≠ 58 ∧ c ≠ 44 ∧
      scalarAt env final (c :: rest) = .ok ())) :
    ∃ tok, ((Decoder.new (lead ++ c :: rest) final).Token env.unmarshalAny).1 = .ok tok := by
  unfold Decoder.Token
  simp only [Decoder.new]
  rw [tokenLoop_skip _ _ hlead]
  by_cases h91 : c = 91
  · subst h91
    exact ⟨.delim 91, by simp [Decoder.tokenLoop, isSpace, Decoder.tokenValueAllowed]⟩
  by_cases h123 : c = 123
  · subst h123
    exact ⟨.delim 123, by simp [Decoder.tokenLoop, isSpace, Decoder.tokenValueAllowed]⟩
  rcases hc with h | h | ⟨hsp, h93, h125, h58, h44, hok⟩
  · exact absurd h h91
  · exact absurd h h123
  · obtain ⟨tok, h⟩ := Token_scalar_ok env final c rest hsp h91 h123 h93 h125 h58 h44 hok
    refine ⟨tok, ?_⟩
    rw [tokenLoop_top_buf env.unmarshalAny final c rest _ (c :: rest) hsp]
    exact h

/-- The loop of `unmarshalStreaming` never reaches the iteration bound of the
model: the call always ends by returning or by the panic of `make`. -/
theorem unmarshalStreaming_total {Item : Type} (env : Env Item) (reader : ReadCloser)
    (n : Int) :
    (unmarshalStreaming env reader n).1 = .panicked "makeslice: cap out of range" ∨
      ∃ res err, (unmarshalStreaming env reader n).1 = .ret (res, err) := by
  unfold unmarshalStreaming
  split_ifs
  · exact Or.inr ⟨_, _, rfl⟩
  · exact Or.inl rfl
  · right
    dsimp only
    cases hT : Decoder.Token env.unmarshalAny (Decoder.new reader.data reader.final) with
    | mk r d =>
      cases r with
      | error e => exact ⟨_, _, rfl⟩
      | ok tok =>
        dsimp only
        have hf := decodeLoop_fuel env (d.buf.length + 1) d [] (Nat.lt_succ_self _)
        cases hL : decodeLoop env (d.buf.length + 1) d [] with
        | outOfFuel => exact absurd hL hf
        | failed e d1 => exact ⟨_, _, rfl⟩
        | done res d1 =>
          dsimp only
          cases hT2 : Decoder.Token env.unmarshalAny d1 with
          | mk r2 d2 =>
            cases r2 with
            | error e => exact ⟨_, _, rfl⟩
            | ok tok2 => exact ⟨_, _, rfl⟩

theorem recordAt_deepRecord (final : GoError) (rest : List Nat) :
    recordAt exampleEnv final (deepRecord ++ rest) =
      .error (.invalidChar 91 "exceeded max depth") := by
  have h : deepRecord = nestedRecord (9998 + 2 + 0) := rfl
  unfold recordAt readValue
  rw [h, scanValue_nestedRecord 9998 0 rfl]
  rfl

theorem deepRecord_wellFormed : Syn .value (maxNestingDepth + 1) deepRecord :=
  nestedRecord_syn 9999

theorem unmarshalStreaming_deepRecord (final : GoError) (rest : List Nat) :
    (unmarshalStreaming exampleEnv ⟨91 :: (deepRecord ++ rest), final⟩ 1).1 =
      .ret (none, some (.wrap "decoding coins market item"
        (.invalidChar 91 "exceeded max depth"))) :=
  unmarshalStreaming_element_error exampleEnv 1 (by decide) (by decide) [] [] []
    (deepRecord ++ rest) final _ rfl rfl (fun x hx => by simp at hx)
    (fun _ => ⟨123, _, rfl, by decide, by decide⟩) (recordAt_deepRecord final rest)

theorem String.length_eq_zero_iff_empty (s : String) : s.length = 0 ↔ s = "" := by
  cases s with
  | mk data =>
    simp only [String.length, List.length_eq_zero]
    constructor
    · intro h; subst h; rfl
    · intro h; exact congrArg String.data h

/-! ## The claims: the streaming array decoder (C1 to C5) -/

/-- C1 (as amended): for every hint `n` with `0 < n ≤ maxCap` and every
stream holding a well-formed JSON array of `k` records (white space allowed
around every token, any bytes after the closing bracket), `unmarshalStreaming`
returns no error and exactly the `k` decodings in stream order, whatever the
relation between `n` and `k`. -/
theorem unmarshalStreaming_array {Item : Type} (env : Env Item) (n : Int) (hn : 0 < n)
    (hcap : n ≤ env.maxCap) (lead inner : List Nat) (elems : List (Element Item))
    (trailing : List Nat) (final : GoError) (hlead : allSpace lead = true)
    (hinner : allSpace inner = true) (hwf : ∀ e ∈ elems, e.WellFormed env) :
    (unmarshalStreaming env ⟨arraySource lead inner elems ++ trailing, final⟩ n).1 =
      .ret (some (elems.map (fun e => e.item)), none) := by
  rw [unmarshalStreaming_closed env n hn hcap lead inner elems trailing final hlead hinner hwf]

/-- Witness of C1: hint 1 on the two-record array
`[{"id":"btc"}, {"id":"eth","p":[1.5e3,null]}` line feed `]`. -/
theorem unmarshalStreaming_array_witness :
    (unmarshalStreaming exampleEnv
        ⟨arraySource [] [] [exampleBtc, exampleEth] ++ [], .eof⟩ 1).1 =
      .ret (some [btcText, ethText], none) :=
  unmarshalStreaming_array exampleEnv 1 (by decide) (by decide) [] [] [exampleBtc, exampleEth]
    [] .eof rfl rfl examples_wellFormed

/-- C1 as stated fails.  The hints `-1` and `2^45 + 1` (more pointers than a
64-bit run time allocates) are non-zero and the stream `[{"id":"btc"}]` is a
well-formed array of one record, yet the call panics in `make` instead of
returning the record.  And with hint 1 the array holding the record
`{"a":[[...]]}` with 10000 nested arrays, well-formed JSON, is refused by the
decoder's nesting limit with the element-decoding error. -/
theorem unmarshalStreaming_array_refuted :
    ((-1 : Int) ≠ 0 ∧ (∀ e ∈ [exampleBtc], e.WellFormed exampleEnv) ∧
      (unmarshalStreaming exampleEnv ⟨arraySource [] [] [exampleBtc], .eof⟩ (-1)).1 =
        .panicked "makeslice: cap out of range" ∧
      (unmarshalStreaming exampleEnv
        ⟨arraySource [] [] [exampleBtc], .eof⟩ 35184372088833).1 =
        .panicked "makeslice: cap out of range") ∧
    (Syn .value (maxNestingDepth + 1) deepRecord ∧
      (unmarshalStreaming exampleEnv ⟨91 :: (deepRecord ++ [93]), .eof⟩ 1).1 =
        .ret (none, some (.wrap "decoding coins market item"
          (.invalidChar 91 "exceeded max depth")))) := by
  refine ⟨⟨by decide, ?_, rfl, rfl⟩, deepRecord_wellFormed,
    unmarshalStreaming_deepRecord .eof [93]⟩
  intro e he
  simp only [List.mem_singleton] at he
  subst he
  exact exampleBtc_wellFormed

/-- C2 (as amended): for every hint `n` with `0 < n ≤ maxCap` and every
stream that opens an array, holds `j - 1` well-formed records each followed by
a comma, and then bytes `bad` whose leading value fails to decode (its scan or
its unmarshalling fails with `e`; for `j = 1` the value is present, that is
the next non-space byte is neither a closing bracket nor a closing brace), the
call fails with "decoding coins market item" wrapping `e` and returns no
records. -/
theorem unmarshalStreaming_bad_element {Item : Type} (env : Env Item) (n : Int) (hn : 0 < n)
    (hcap : n ≤ env.maxCap) (lead inner : List Nat) (good : List (Element Item))
    (bad : List Nat) (final : GoError) (e : GoError) (hlead : allSpace lead = true)
    (hinner : allSpace inner = true) (hwf : ∀ x ∈ good, x.WellFormed env)
    (hopen : good = [] → ∃ c t, dropSpaces bad = c :: t ∧ c ≠ 93 ∧ c ≠ 125)
    (hbad : recordAt env final bad = .error e) :
    (unmarshalStreaming env ⟨lead ++ 91 :: (inner ++ (goodSource good ++ bad)), final⟩ n).1 =
      .ret (none, some (.wrap "decoding coins market item" e)) :=
  unmarshalStreaming_element_error env n hn hcap lead inner good bad final e hlead hinner hwf
    hopen hbad

/-- Witness of C2: hint 100 on `[{"id":"btc"}, {"id":"eth","p":[1.5e3,null]}`,
line feed, `,{"id":},{},{}]`: element 3 of 5 is malformed. -/
theorem unmarshalStreaming_bad_element_witness :
    (unmarshalStreaming exampleEnv
        ⟨[] ++ 91 :: ([] ++ (goodSource [exampleBtc, exampleEth] ++
          [123, 34, 105, 100, 34, 58, 125, 44, 123, 125, 44, 123, 125, 93])), .eof⟩ 100).1 =
      .ret (none, some (.wrap "decoding coins market item"
        (.invalidChar 125 "looking for beginning of value"))) :=
  unmarshalStreaming_bad_element exampleEnv 100 (by decide) (by decide) [] []
    [exampleBtc, exampleEth] [123, 34, 105, 100, 34, 58, 125, 44, 123, 125, 44, 123, 125, 93]
    .eof _ rfl rfl examples_wellFormed (fun h => by simp at h) rfl

/-- C2 as stated fails.  With the non-zero hints `-1` and `2^45 + 1` the
stream `[{"id":"btc"},{"id":}]`, whose second element is malformed, makes the
call panic in `make`.  With hint 1 the stream `[}`, whose first element
position holds a stray brace, fails with "invalid end token", not with the
element-decoding error. -/
theorem unmarshalStreaming_bad_element_other_outcomes :
    (unmarshalStreaming exampleEnv
        ⟨91 :: (btcText ++ [44, 123, 34, 105, 100, 34, 58, 125, 93]), .eof⟩ (-1)).1 =
        .panicked "makeslice: cap out of range" ∧
      (unmarshalStreaming exampleEnv
        ⟨91 :: (btcText ++ [44, 123, 34, 105, 100, 34, 58, 125, 93]), .eof⟩
        35184372088833).1 = .panicked "makeslice: cap out of range" ∧
      (unmarshalStreaming exampleEnv ⟨[91, 125], .eof⟩ 1).1 =
        .ret (none, some (.wrap "invalid end token"
          (.invalidChar 125 " looking for beginning of value"))) :=
  ⟨rfl, rfl, rfl⟩

/-- C3 (as amended): for every hint `n` with `0 < n ≤ maxCap` the start check
depends on the first token alone.  It fails, with no records returned, in
three cases: a stream that is empty or holds only white space fails with
"invalid start token" wrapping the reader's end-of-input error; a stream whose
first non-space byte is a closing bracket, closing brace, colon or comma fails
with "invalid start token" wrapping the syntax error for that byte; a stream
whose first non-space byte starts a scalar that fails to scan or to decode
fails with "invalid start token" wrapping that failure.  Every other stream
passes it: when the first non-space byte is an opening bracket or an opening
brace, or starts a scalar that scans and decodes without error, the call never
fails with "invalid start token"; it returns records, or fails with the
element-decoding error or with "invalid end token". -/
theorem unmarshalStreaming_bad_start {Item : Type} (env : Env Item) (n : Int) (hn : 0 < n)
    (hcap : n ≤ env.maxCap) (lead : List Nat) (final : GoError)
    (hlead : allSpace lead = true) :
    (unmarshalStreaming env ⟨lead, final⟩ n).1 =
        .ret (none, some (.wrap "invalid start token" final)) ∧
      (∀ (c : Nat) (rest : List Nat), c = 93 ∨ c = 125 ∨ c = 58 ∨ c = 44 →
        (unmarshalStreaming env ⟨lead ++ c :: rest, final⟩ n).1 =
          .ret (none, some (.wrap "invalid start token"
            (.invalidChar c " looking for beginning of value")))) ∧
      (∀ (c : Nat) (rest : List Nat) (e : GoError), isSpace c = false → c ≠ 91 → c ≠ 123 →
        c ≠ 93 → c ≠ 125 → c ≠ 58 → c ≠ 44 → scalarAt env final (c :: rest) = .error e →
        (unmarshalStreaming env ⟨lead ++ c :: rest, final⟩ n).1 =
          .ret (none, some (.wrap "invalid start token" e))) ∧
      ∀ (c : Nat) (rest : List Nat),
        c = 91 ∨ c = 123 ∨ (isSpace c = false ∧ c ≠ 93 ∧ c ≠ 125 ∧ c ≠ 58 ∧ c ≠ 44 ∧
          scalarAt env final (c :: rest) = .ok ()) →
        (∀ e, (unmarshalStreaming env ⟨lead ++ c :: rest, final⟩ n).1 ≠
          .ret (none, some (.wrap "invalid start token" e))) ∧
        ((∃ res, (unmarshalStreaming env ⟨lead ++ c :: rest, final⟩ n).1 =
            .ret (some res, none)) ∨
          (∃ e, (unmarshalStreaming env ⟨lead ++ c :: rest, final⟩ n).1 =
            .ret (none, some (.wrap "decoding coins market item" e))) ∨
          ∃ e, (unmarshalStreaming env ⟨lead ++ c :: rest, final⟩ n).1 =
            .ret (none, some (.wrap "invalid end token" e))) := by
  refine ⟨?_, ?_, ?_, ?_⟩
  · apply unmarshalStreaming_start_error env n hn hcap
    unfold Decoder.Token
    rw [tokenLoop_end env.unmarshalAny (Decoder.new lead final) (Decoder.new lead final).buf
      (dropSpaces_allSpace hlead)]
    rfl
  · intro c rest hc
    apply unmarshalStreaming_start_error env n hn hcap
    unfold Decoder.Token
    simp only [Decoder.new]
    rw [tokenLoop_skip _ _ hlead]
    rcases hc with h | h | h | h <;> subst h <;>
      simp [Decoder.tokenLoop, isSpace, Decoder.tokenError]
  · intro c rest e hc h91 h123 h93 h125 h58 h44 hbad
    apply unmarshalStreaming_start_error env n hn hcap
    unfold Decoder.Token
    simp only [Decoder.new]
    rw [tokenLoop_skip _ _ hlead]
    rw [tokenLoop_top_buf env.unmarshalAny final c rest _ (c :: rest) hc]
    exact Token_scalar_fails env final c rest e hc h91 h123 h93 h125 h58 h44 hbad
  · intro c rest hc
    obtain ⟨tok, htok⟩ := Token_start_ok env lead final hlead c rest hc
    have h := unmarshalStreaming_started env n hn hcap (lead ++ c :: rest) final tok htok
    refine ⟨?_, h⟩
    intro e he
    rcases h with ⟨res, h⟩ | ⟨e1, h⟩ | ⟨e1, h⟩ <;> rw [h] at he <;> simp at he

/-- Witness of C3: hint 1 on a stream holding one space, on a space followed
by `}x`, on a space followed by the truncated literal `tru`, and on a space
followed by `{}`, which passes the start check. -/
theorem unmarshalStreaming_bad_start_witness :
    (unmarshalStreaming exampleEnv ⟨[32], .eof⟩ 1).1 =
        .ret (none, some (.wrap "invalid start token" .eof)) ∧
      (unmarshalStreaming exampleEnv ⟨[32] ++ 125 :: [120], .eof⟩ 1).1 =
        .ret (none, some (.wrap "invalid start token"
          (.invalidChar 125 " looking for beginning of value"))) ∧
      (unmarshalStreaming exampleEnv ⟨[32] ++ 116 :: [114, 117], .eof⟩ 1).1 =
        .ret (none, some (.wrap "invalid start token" .unexpectedEOF)) ∧
      ∀ e, (unmarshalStreaming exampleEnv ⟨[32] ++ 123 :: [125], .eof⟩ 1).1 ≠
        .ret (none, some (.wrap "invalid start token" e)) :=
  ⟨(unmarshalStreaming_bad_start exampleEnv 1 (by decide) (by decide) [32] .eof rfl).1,
   (unmarshalStreaming_bad_start exampleEnv 1 (by decide) (by decide) [32] .eof rfl).2.1
     125 [120] (Or.inr (Or.inl rfl)),
   (unmarshalStreaming_bad_start exampleEnv 1 (by decide) (by decide) [32] .eof rfl).2.2.1
     116 [114, 117] .unexpectedEOF rfl (by decide) (by decide) (by decide) (by decide)
     (by decide) (by decide) rfl,
   ((unmarshalStreaming_bad_start exampleEnv 1 (by decide) (by decide) [32] .eof rfl).2.2.2
     123 [125] (Or.inr (Or.inl rfl))).1⟩

/-- C3 as stated fails.  With hint 1 the stream `{}`, whose first token is an
object open marker, returns an empty sequence and no error; the streams `42`
and `null` fail with "invalid end token", not "invalid start token".  And with
the non-zero hints `-1` and `2^45 + 1` the empty stream makes the call panic
in `make`. -/
theorem unmarshalStreaming_start_token_not_checked :
    (unmarshalStreaming exampleEnv ⟨[123, 125], .eof⟩ 1).1 = .ret (some [], none) ∧
      (unmarshalStreaming exampleEnv ⟨[52, 50], .eof⟩ 1).1 =
        .ret (none, some (.wrap "invalid end token" .eof)) ∧
      (unmarshalStreaming exampleEnv ⟨[110, 117, 108, 108], .eof⟩ 1).1 =
        .ret (none, some (.wrap "invalid end token" .eof)) ∧
      (unmarshalStreaming exampleEnv ⟨[], .eof⟩ (-1)).1 =
        .panicked "makeslice: cap out of range" ∧
      (unmarshalStreaming exampleEnv ⟨[], .eof⟩ 35184372088833).1 =
        .panicked "makeslice: cap out of range" :=
  ⟨rfl, rfl, rfl, rfl, rfl⟩

/-- C4 (as amended): for every hint `n` with `0 < n ≤ maxCap` and every
stream that holds `[`, then `k ≥ 0` well-formed comma-separated records, then
only white space up to the end of input, all `k` elements decode and the call
fails with "invalid end token" wrapping the reader's end-of-input error,
returning no records. -/
theorem unmarshalStreaming_missing_close {Item : Type} (env : Env Item) (n : Int)
    (hn : 0 < n) (hcap : n ≤ env.maxCap) (lead inner : List Nat)
    (elems : List (Element Item)) (ws : List Nat) (final : GoError)
    (hlead : allSpace lead = true) (hinner : allSpace inner = true)
    (hwf : ∀ e ∈ elems, e.WellFormed env) (hws : allSpace ws = true) :
    (unmarshalStreaming env ⟨lead ++ 91 :: (inner ++ (elemsSource elems ++ ws)), final⟩ n).1 =
      .ret (none, some (.wrap "invalid end token" final)) := by
  have hnil := dropSpaces_allSpace hws
  obtain ⟨buf, st, _, hb1, _, heq⟩ := unmarshalStreaming_elems env n hn hcap lead inner elems
    ws final hlead hinner hwf (by simp [NoMore, hnil])
  rw [heq]
  have htok : (afterElems buf final st).Token env.unmarshalAny =
      (.error final, afterElems buf final st) :=
    tokenLoop_end env.unmarshalAny (afterElems buf final st) buf (hb1.trans hnil)
  rw [htok]

/-- Witness of C4: hint 250 on `[{"id":"btc"}, {"id":"eth","p":[1.5e3,null]}`
followed by a line feed and the end of input. -/
theorem unmarshalStreaming_missing_close_witness :
    (unmarshalStreaming exampleEnv
        ⟨[] ++ 91 :: ([] ++ (elemsSource [exampleBtc, exampleEth] ++ [])), .eof⟩ 250).1 =
      .ret (none, some (.wrap "invalid end token" .eof)) :=
  unmarshalStreaming_missing_close exampleEnv 250 (by decide) (by decide) [] []
    [exampleBtc, exampleEth] [] .eof rfl rfl examples_wellFormed rfl

/-- C4 as stated fails.  With the non-zero hints `-1` and `2^45 + 1` the
stream `[{"id":"btc"}` without closing bracket makes the call panic in
`make`.  And with hint 1 the unclosed array holding the well-formed record
`{"a":[[...]]}` with 10000 nested arrays fails with the element-decoding
error, not with "invalid end token". -/
theorem unmarshalStreaming_missing_close_refuted :
    ((-1 : Int) ≠ 0 ∧
      (unmarshalStreaming exampleEnv ⟨91 :: btcText, .eof⟩ (-1)).1 =
        .panicked "makeslice: cap out of range" ∧
      (unmarshalStreaming exampleEnv ⟨91 :: btcText, .eof⟩ 35184372088833).1 =
        .panicked "makeslice: cap out of range") ∧
    (Syn .value (maxNestingDepth + 1) deepRecord ∧
      (unmarshalStreaming exampleEnv ⟨91 :: (deepRecord ++ []), .eof⟩ 1).1 =
        .ret (none, some (.wrap "decoding coins market item"
          (.invalidChar 91 "exceeded max depth")))) :=
  ⟨⟨by decide, rfl, rfl⟩, deepRecord_wellFormed, unmarshalStreaming_deepRecord .eof []⟩

/-- C5 (as amended): for every hint `n` with `0 < n ≤ maxCap` and every
stream holding a complete well-formed array of records followed by trailing
bytes that start with a non-space byte, `unmarshalStreaming` returns the
records in stream order and no error: what follows the closing bracket has no
effect on the result. -/
theorem unmarshalStreaming_trailing_bytes {Item : Type} (env : Env Item) (n : Int)
    (hn : 0 < n) (hcap : n ≤ env.maxCap) (lead inner : List Nat)
    (elems : List (Element Item)) (g : Nat) (rest : List Nat) (final : GoError)
    (hlead : allSpace lead = true) (hinner : allSpace inner = true)
    (hwf : ∀ e ∈ elems, e.WellFormed env) (_hg : isSpace g = false) :
    (unmarshalStreaming env ⟨arraySource lead inner elems ++ g :: rest, final⟩ n).1 =
      .ret (some (elems.map (fun e => e.item)), none) := by
  rw [unmarshalStreaming_closed env n hn hcap lead inner elems (g :: rest) final hlead hinner
    hwf]

/-- Witness of C5: hint 1 on `[{"id":"btc"}]` followed by the bytes `x]`. -/
theorem unmarshalStreaming_trailing_bytes_witness :
    (unmarshalStreaming exampleEnv
        ⟨arraySource [] [] [exampleBtc] ++ 120 :: [93], .eof⟩ 1).1 =
      .ret (some [btcText], none) :=
  unmarshalStreaming_trailing_bytes exampleEnv 1 (by decide) (by decide) [] [] [exampleBtc]
    120 [93] .eof rfl rfl
    (fun e he => by
      simp only [List.mem_singleton] at he
      subst he
      exact exampleBtc_wellFormed)
    rfl

/-- C5 as stated fails.  With hint 1 the stream `[{"id":"btc"}]xyz`, a
complete array followed by garbage, yields the record and no error.  With the
non-zero hints `-1` and `2^45 + 1` the same stream makes the call panic in
`make`.  And with
hint 1 the array holding the well-formed record `{"a":[[...]]}` with 10000
nested arrays, followed by `x`, fails with the element-decoding error. -/
theorem unmarshalStreaming_trailing_garbage_accepted :
    (unmarshalStreaming exampleEnv ⟨91 :: (btcText ++ [93, 120, 121, 122]), .eof⟩ 1).1 =
        .ret (some [btcText], none) ∧
      (unmarshalStreaming exampleEnv ⟨91 :: (btcText ++ [93, 120, 121, 122]), .eof⟩ (-1)).1 =
        .panicked "makeslice: cap out of range" ∧
      (unmarshalStreaming exampleEnv
        ⟨91 :: (btcText ++ [93, 120, 121, 122]), .eof⟩ 35184372088833).1 =
        .panicked "makeslice: cap out of range" ∧
      (unmarshalStreaming exampleEnv ⟨91 :: (deepRecord ++ [93, 120]), .eof⟩ 1).1 =
        .ret (none, some (.wrap "decoding coins market item"
          (.invalidChar 91 "exceeded max depth"))) :=
  ⟨rfl, rfl, rfl, unmarshalStreaming_deepRecord .eof [93, 120]⟩

/-! ## The claims: the request path and the endpoint (C6 to C9) -/

/-- C6 (the code departs from it): when the transport fails, `Do` returning a
nil response and an error, `doStreamingReq` evaluates `resp.Body` on the nil
response and panics, and the panic passes through `MakeStreamingReq`; neither
returns the error. -/
theorem streamingReq_transport_failure_panics {Item : Type} (env : Env Item) (c : Client)
    (ctx : Context) (url : String) (req : Request) (err : GoError)
    (hreq : env.NewRequestWithContext ctx "GET" url = .ok req)
    (hdo : c.httpClient req = ⟨none, some err⟩) :
    doStreamingReq req c.httpClient = .panicked nilDeref ∧
      (MakeStreamingReq env c ctx url).1 = .panicked nilDeref := by
  have h1 : doStreamingReq req c.httpClient = .panicked nilDeref := by
    simp [doStreamingReq, hdo]
  exact ⟨h1, by simp [MakeStreamingReq, hreq, h1]⟩

/-- Witness of C6: a lookup failure reported by the transport. -/
theorem streamingReq_transport_failure_panics_witness :
    doStreamingReq exampleReq failingClient.httpClient = .panicked nilDeref ∧
      (MakeStreamingReq exampleEnv failingClient (some "background") exampleReq.url).1 =
        .panicked nilDeref :=
  streamingReq_transport_failure_panics exampleEnv failingClient (some "background")
    exampleReq.url exampleReq (.other "dial tcp: no such host") rfl rfl

/-- C7 (as amended): when `Do` returns a response and no error, the call closes
the body exactly once.  With status 200 the close is the last event, after the
hooks, whatever the decoder returned; with any other status the body is
drained, then closed, inside `MakeStreamingReq`, the decoder is never reached
and the error reports the status code.  When `Do` returns a response together
with an error, it has closed the body itself, and `MakeStreamingReq` drains
and closes it again: the body is closed twice, and the call returns the
transport error. -/
theorem CoinsMarket_closes_body_once {Item : Type} (env : Env Item) (c : Client)
    (ctx : Context) (vsCurrency : String) (ids : List String) (order : String)
    (perPage page : Int) (sparkline : Bool) (priceChangePercentage : List String)
    (req : Request) (resp : Response) (terr : Option GoError)
    (hcur : vsCurrency.length ≠ 0)
    (hreq : env.NewRequestWithContext ctx "GET" (buildUrlParams env baseURL "/coins/markets?"
      (CoinsMarket.query env vsCurrency ids order perPage page sparkline
        priceChangePercentage).1) = .ok req)
    (hdo : c.httpClient req = ⟨some resp, terr⟩) :
    (terr = none →
        (CoinsMarket env c ctx vsCurrency ids order perPage page sparkline
          priceChangePercentage).2.count Event.close = 1) ∧
      (terr = none → resp.StatusCode = 200 →
        (CoinsMarket env c ctx vsCurrency ids order perPage page sparkline
          priceChangePercentage).2 =
          hook c.StartHook .startHook ++ [.send req] ++ hook c.EndHook .endHook ++ [.close]) ∧
      (terr = none → resp.StatusCode ≠ 200 →
        CoinsMarket env c ctx vsCurrency ids order perPage page sparkline
          priceChangePercentage =
          (.ret (none, some (.wrap "male streaming req" (.statusCode resp.StatusCode))),
            hook c.StartHook .startHook ++ [.send req, .drain, .close] ++
              hook c.EndHook .endHook)) ∧
      ∀ e, terr = some e →
        CoinsMarket env c ctx vsCurrency ids order perPage page sparkline
            priceChangePercentage =
          (.ret (none, some (.wrap "male streaming req" e)),
            hook c.StartHook .startHook ++ [.send req, .close, .drain, .close] ++
              hook c.EndHook .endHook) ∧
        (CoinsMarket env c ctx vsCurrency ids order perPage page sparkline
          priceChangePercentage).2.count Event.close = 2 := by
  have hcount : ∀ (mid tail : List Event) (k : Nat),
      mid.count Event.close + tail.count Event.close = k →
      (hook c.StartHook .startHook ++ [Event.send req] ++ mid ++ hook c.EndHook .endHook ++
        tail).count Event.close = k := by
    intro mid tail k h
    cases c.StartHook <;> cases c.EndHook <;> simp [hook, List.count_cons] <;> omega
  cases terr with
  | some e =>
    have hms : MakeStreamingReq env c ctx (buildUrlParams env baseURL "/coins/markets?"
        (CoinsMarket.query env vsCurrency ids order perPage page sparkline
          priceChangePercentage).1) =
        (.ret (none, some e), hook c.StartHook .startHook ++ [.send req, .close] ++
          [.drain, .close] ++ hook c.EndHook .endHook) := by
      simp [MakeStreamingReq, hreq, doStreamingReq, doEvents, hdo]
    have hout : CoinsMarket env c ctx vsCurrency ids order perPage page sparkline
        priceChangePercentage =
        (.ret (none, some (.wrap "male streaming req" e)),
          hook c.StartHook .startHook ++ [.send req, .close, .drain, .close] ++
            hook c.EndHook .endHook) := by
      simp only [CoinsMarket, hcur, if_false, hms]
      simp
    refine ⟨fun h => by simp at h, fun h => by simp at h, fun h => by simp at h, ?_⟩
    intro e1 he1
    have he : e = e1 := by simpa using he1
    subst he
    refine ⟨hout, ?_⟩
    rw [hout]
    simpa using hcount [.close, .drain, .close] [] 2 (by simp [List.count_cons])
  | none =>
    by_cases hst : resp.StatusCode = 200
    · have hms : MakeStreamingReq env c ctx (buildUrlParams env baseURL "/coins/markets?"
          (CoinsMarket.query env vsCurrency ids order perPage page sparkline
            priceChangePercentage).1) =
          (.ret (some resp.Body, none), hook c.StartHook .startHook ++ [.send req] ++
            hook c.EndHook .endHook) := by
        simp [MakeStreamingReq, hreq, doStreamingReq, doEvents, hdo, hst]
      have htrace : (CoinsMarket env c ctx vsCurrency ids order perPage page sparkline
          priceChangePercentage).2 =
          hook c.StartHook .startHook ++ [.send req] ++ hook c.EndHook .endHook ++ [.close] := by
        simp only [CoinsMarket, hcur, if_false, hms]
        split <;> rfl
      refine ⟨fun _ => ?_, fun _ _ => htrace, fun _ h => absurd hst h,
        fun e h => by simp at h⟩
      rw [htrace]
      simpa using hcount [] [.close] 1 (by simp [List.count_cons])
    · have hms : MakeStreamingReq env c ctx (buildUrlParams env baseURL "/coins/markets?"
          (CoinsMarket.query env vsCurrency ids order perPage page sparkline
            priceChangePercentage).1) =
          (.ret (none, some (.statusCode resp.StatusCode)),
            hook c.StartHook .startHook ++ [.send req] ++ [.drain, .close] ++
              hook c.EndHook .endHook) := by
        have h2 : ¬ (200 : Int) = resp.StatusCode := fun h => hst h.symm
        simp [MakeStreamingReq, hreq, doStreamingReq, doEvents, hdo, h2]
      have hout : CoinsMarket env c ctx vsCurrency ids order perPage page sparkline
          priceChangePercentage =
          (.ret (none, some (.wrap "male streaming req" (.statusCode resp.StatusCode))),
            hook c.StartHook .startHook ++ [.send req, .drain, .close] ++
              hook c.EndHook .endHook) := by
        simp only [CoinsMarket, hcur, if_false, hms]
        simp
      refine ⟨fun _ => ?_, fun _ h => absurd h hst, fun _ _ => hout, fun e h => by simp at h⟩
      rw [hout]
      simpa using hcount [.drain, .close] [] 1 (by simp [List.count_cons])

/-- Witness of C7: a call for `usd` answered with 200 and the body
`[{"id":"btc"}]` closes the body once, as its last event; a call answered
with 404 drains the body, closes it once and reports the status. -/
theorem CoinsMarket_closes_body_once_witness :
    ((CoinsMarket exampleEnv exampleClient (some "background") "usd" [] "" 0 1 false
        []).2.count Event.close = 1 ∧
      (CoinsMarket exampleEnv exampleClient (some "background") "usd" [] "" 0 1 false []).2 =
        [.startHook, .send exampleReq, .endHook, .close]) ∧
    CoinsMarket exampleEnv notFoundClient (some "background") "usd" [] "" 0 1 false [] =
      (.ret (none, some (.wrap "male streaming req" (.statusCode 404))),
        [.startHook, .send exampleReq, .drain, .close, .endHook]) :=
  ⟨⟨(CoinsMarket_closes_body_once exampleEnv exampleClient (some "background") "usd" [] "" 0 1
      false [] exampleReq
      { StatusCode := 200, Body := { data := 91 :: (btcText ++ [93]), final := .eof } } none
      (by decide) rfl rfl).1 rfl,
    (CoinsMarket_closes_body_once exampleEnv exampleClient (some "background") "usd" [] "" 0 1
      false [] exampleReq
      { StatusCode := 200, Body := { data := 91 :: (btcText ++ [93]), final := .eof } } none
      (by decide) rfl rfl).2.1 rfl rfl⟩,
   (CoinsMarket_closes_body_once exampleEnv notFoundClient (some "background") "usd" [] "" 0 1
      false [] exampleReq { StatusCode := 404, Body := { data := [123, 125], final := .eof } }
      none (by decide) rfl rfl).2.2.1 rfl (by decide)⟩

/-- C7 as stated fails.  A call for `usd` whose `Do` stops after ten redirects
receives a response, whose body `Do` has closed, together with the error;
`MakeStreamingReq` drains and closes that body again, so by the time
`CoinsMarket` returns the body has been closed twice, not once. -/
theorem CoinsMarket_body_closed_twice :
    redirectClient.httpClient exampleReq =
        ⟨some ⟨302, ⟨[], .other "http: read on closed response body"⟩⟩,
          some (.other "stopped after 10 redirects")⟩ ∧
      CoinsMarket exampleEnv redirectClient (some "background") "usd" [] "" 0 1 false [] =
        (.ret (none, some (.wrap "male streaming req" (.other "stopped after 10 redirects"))),
          [.startHook, .send exampleReq, .close, .drain, .close, .endHook]) ∧
      (CoinsMarket exampleEnv redirectClient (some "background") "usd" [] "" 0 1 false
        []).2.count Event.close = 2 :=
  ⟨rfl, rfl, rfl⟩

/-- C8: the `per_page` parameter sent and the count hint handed to
`unmarshalStreaming` are both `100` when `perPage ≤ 0` or `perPage > 250` and
`perPage` itself otherwise, hence always within `1..250`; on a call with a
non-empty currency that reaches the decoder, the decoder runs with exactly
that hint. -/
theorem CoinsMarket_perPage_normalised {Item : Type} (env : Env Item) (vsCurrency : String)
    (ids : List String) (order : String) (perPage page : Int) (sparkline : Bool)
    (priceChangePercentage : List String) :
    (CoinsMarket.query env vsCurrency ids order perPage page sparkline
        priceChangePercentage).1.Get "per_page" =
        some (env.Int2String (if perPage ≤ 0 ∨ perPage > 250 then 100 else perPage)) ∧
      (CoinsMarket.query env vsCurrency ids order perPage page sparkline
        priceChangePercentage).2 = (if perPage ≤ 0 ∨ perPage > 250 then 100 else perPage) ∧
      1 ≤ (if perPage ≤ 0 ∨ perPage > 250 then 100 else perPage) ∧
      (if perPage ≤ 0 ∨ perPage > 250 then 100 else perPage) ≤ 250 ∧
      ∀ (c : Client) (ctx : Context) (req : Request) (body : ReadCloser),
        vsCurrency.length ≠ 0 →
        env.NewRequestWithContext ctx "GET" (buildUrlParams env baseURL "/coins/markets?"
          (CoinsMarket.query env vsCurrency ids order perPage page sparkline
            priceChangePercentage).1) = .ok req →
        c.httpClient req = ⟨some ⟨200, body⟩, none⟩ →
        (CoinsMarket env c ctx vsCurrency ids order perPage page sparkline
          priceChangePercentage).1 =
          match (unmarshalStreaming env body
            (if perPage ≤ 0 ∨ perPage > 250 then 100 else perPage)).1 with
          | .panicked msg => .panicked msg
          | .ret (_, some err) => .ret (none, some (.wrap "unmarshaling resp" err))
          | .ret (res, none) => .ret (res, none) := by
  have hq2 : (CoinsMarket.query env vsCurrency ids order perPage page sparkline
      priceChangePercentage).2 = (if perPage ≤ 0 ∨ perPage > 250 then 100 else perPage) := rfl
  refine ⟨?_, hq2, ?_, ?_, ?_⟩
  · unfold CoinsMarket.query
    by_cases hids : ids.length ≠ 0 <;> by_cases hp : priceChangePercentage.length ≠ 0 <;>
      simp [hids, hp, Values.Get]
  · split <;> omega
  · split <;> omega
  · intro c ctx req body hcur hreq hdo
    have hms : MakeStreamingReq env c ctx (buildUrlParams env baseURL "/coins/markets?"
        (CoinsMarket.query env vsCurrency ids order perPage page sparkline
          priceChangePercentage).1) =
        (.ret (some body, none), hook c.StartHook .startHook ++ [.send req] ++
          hook c.EndHook .endHook) := by
      simp [MakeStreamingReq, hreq, doStreamingReq, doEvents, hdo]
    simp only [CoinsMarket, hcur, if_false, hms, hq2]
    split <;> simp_all

/-- Witness of C8: `perPage = 0` is sent as `per_page` 100, and a call for
`usd` answered with 200 and the body `[{"id":"btc"}]` returns what the decoder
returns with hint 100, the one record. -/
theorem CoinsMarket_perPage_normalised_witness :
    (CoinsMarket.query exampleEnv "usd" [] "" 0 1 false []).1.Get "per_page" =
        some (exampleEnv.Int2String 100) ∧
      (CoinsMarket exampleEnv exampleClient (some "background") "usd" [] "" 0 1 false []).1 =
        .ret (some [btcText], none) :=
  ⟨(CoinsMarket_perPage_normalised exampleEnv "usd" [] "" 0 1 false []).1,
   (CoinsMarket_perPage_normalised exampleEnv "usd" [] "" 0 1 false []).2.2.2.2
     exampleClient (some "background") exampleReq
     { data := 91 :: (btcText ++ [93]), final := .eof } (by decide) rfl rfl⟩

/-- C9 (as amended): the `order` parameter sent is the default
`types.OrderTypeObject.MarketCapDesc` when the given order is empty, and the
given order unchanged whenever it is non-empty, recognised or not. -/
theorem CoinsMarket_order_default {Item : Type} (env : Env Item) (vsCurrency : String)
    (ids : List String) (order : String) (perPage page : Int) (sparkline : Bool)
    (priceChangePercentage : List String) :
    (CoinsMarket.query env vsCurrency ids order perPage page sparkline
        priceChangePercentage).1.Get "order" =
      some (if order = "" then env.MarketCapDesc else order) := by
  have h : (order.length = 0) = (order = "") := propext (String.length_eq_zero_iff_empty order)
  unfold CoinsMarket.query
  by_cases hids : ids.length ≠ 0 <;> by_cases hp : priceChangePercentage.length ≠ 0 <;>
    simp [hids, hp, Values.Get, h]

/-- C9 as stated fails: the order `no_such_order`, which is not empty and is
not the name of a sort order, is sent unchanged and differs from the default
`market_cap_desc`. -/
theorem CoinsMarket_unrecognised_order_sent :
    (CoinsMarket.query exampleEnv "usd" [] "no_such_order" 100 1 false []).1.Get "order" =
        some "no_such_order" ∧
      "no_such_order" ≠ exampleEnv.MarketCapDesc := by
  refine ⟨rfl, by decide⟩

/-! ## The claims: the zero hint (C10) -/

/-- C10: with hint 0 `unmarshalStreaming` returns the nil sequence and no
error and leaves the reader as it was: nothing is read, whatever the stream
holds. -/
theorem unmarshalStreaming_zero_hint {Item : Type} (env : Env Item) (reader : ReadCloser) :
    unmarshalStreaming env reader 0 = (.ret (none, none), .untouched reader) := by
  simp [unmarshalStreaming]

end GoGecko
